import Mathlib

/-!
Verification of the integer range-inference core
(`src/hotspot/share/opto/rangeinference.cpp`).

The C++ code is templated over an unsigned machine integer type `U` of
width `W` (32 or 64) and its signed counterpart `S`.  We embed it
shallowly: a `U` value is a `Nat` below `2 ^ W`, machine arithmetic is
`Nat` arithmetic reduced `% 2 ^ W`, `~x` is `(2 ^ W - 1) ^^^ x`, and a
value reinterpreted as `S` is read through `sval` below.  The width `W`
is an explicit parameter, so every theorem covers both the 32-bit and
the 64-bit instantiation of the template.
-/

namespace RangeInf

/-- Two same-width masks recording which bit positions are forced to 0
or to 1 (`KnownBits` from `rangeinference.hpp`, as described by the
spec's data model). -/
structure KnownBits where
  zeros : Nat
  ones : Nat
deriving DecidableEq

/-- An inclusive interval of `W`-bit values (`RangeInt<U>`). -/
structure RangeInt where
  lo : Nat
  hi : Nat
deriving DecidableEq

/-- Result of one iterative tightening step (`AdjustResult<T>` in the
source): a progress flag, a consistency flag, and the payload. -/
structure AdjustResult (T : Type) where
  progress : Bool
  is_result_consistent : Bool
  result : T
deriving DecidableEq

/-- Result of canonicalizing one sign-consistent sub-domain
(`SimpleCanonicalResult<U>` in the source). -/
structure SimpleCanonicalResult where
  present : Bool
  bounds : RangeInt
  bits : KnownBits
deriving DecidableEq

/-- A candidate (possibly non-canonical) triple of signed range,
unsigned range and known bits (`TypeIntPrototype<S, U>`).  Both ranges
are stored as raw `W`-bit patterns; the signed range is compared through
`sval`. -/
structure TypeIntPrototype where
  srange : RangeInt
  urange : RangeInt
  bits : KnownBits
deriving DecidableEq

/-- Output of the top-level canonicalization
(`TypeIntPrototype<S, U>::CanonicalizedTypeIntPrototype`). -/
structure CanonicalizedTypeIntPrototype where
  present : Bool
  data : TypeIntPrototype
deriving DecidableEq

/-- Bitwise complement of a `W`-bit value (the C++ `~x` on `U`). -/
def compl (W x : Nat) : Nat := (2 ^ W - 1) ^^^ x

/-- Unsigned negation of a `W`-bit value (the C++ `-x` on `U`). -/
def negW (W x : Nat) : Nat := (2 ^ W - x) % 2 ^ W

/-- Fuel-driven binary logarithm, definitionally equal to floor(log2)
for positive inputs once the fuel dominates the argument.  Structural
recursion keeps it kernel-reducible. -/
def log2fuel : Nat → Nat → Nat
  | 0, _ => 0
  | f + 1, x => if x < 2 then 0 else log2fuel f (x / 2) + 1

/-- Floor of the binary logarithm (0 at 0). -/
def mylog2 (x : Nat) : Nat := log2fuel x x

/-- The hotspot `count_leading_zeros` utility restricted to `W`-bit
values: the number of leading zero bits of `x` in a `W`-bit word. -/
def count_leading_zeros (W x : Nat) : Nat :=
  if x = 0 then W else W - 1 - mylog2 x

/-- `adjust_lo` from rangeinference.cpp: the minimum value that is not
less than `lo` and satisfies `bits`; if no such number exists the
calculation overflows and returns a value less than `lo`. -/
def adjust_lo (W lo : Nat) (bits : KnownBits) : Nat :=
  let zero_violation := lo &&& bits.zeros
  let one_violation := compl W lo &&& bits.ones
  if zero_violation = one_violation then
    lo
  else if zero_violation < one_violation then
    let first_violation := W - 1 - count_leading_zeros W one_violation
    let alignment := (1 <<< first_violation) % 2 ^ W
    let new_lo := ((lo &&& negW W alignment) + alignment) % 2 ^ W
    new_lo ||| bits.ones
  else
    let first_violation := W - count_leading_zeros W zero_violation
    let find_mask := ((2 ^ W - 1) <<< first_violation) % 2 ^ W
    let either := lo ||| bits.zeros
    let tmp := compl W either &&& find_mask
    let alignment := tmp &&& negW W tmp
    let new_lo := ((lo &&& negW W alignment) + alignment) % 2 ^ W
    new_lo ||| bits.ones

/-- `adjust_bounds_from_bits` from rangeinference.cpp: tighten the bound
constraints from the known bit information. -/
def adjust_bounds_from_bits (W : Nat) (bounds : RangeInt) (bits : KnownBits) :
    AdjustResult RangeInt :=
  let new_lo := adjust_lo W bounds.lo bits
  if new_lo < bounds.lo then
    ⟨true, false, ⟨0, 0⟩⟩
  else
    let new_hi := compl W (adjust_lo W (compl W bounds.hi) ⟨bits.ones, bits.zeros⟩)
    if bounds.hi < new_hi then
      ⟨true, false, ⟨0, 0⟩⟩
    else
      ⟨decide (new_lo ≠ bounds.lo ∨ new_hi ≠ bounds.hi), decide (new_lo ≤ new_hi),
        ⟨new_lo, new_hi⟩⟩

/-- `adjust_bits_from_bounds` from rangeinference.cpp: tighten the known
bit constraints by extracting the common prefix of `lo` and `hi`. -/
def adjust_bits_from_bounds (W : Nat) (bits : KnownBits) (bounds : RangeInt) :
    AdjustResult KnownBits :=
  let mismatch := bounds.lo ^^^ bounds.hi
  let match_mask :=
    if mismatch = 0 then 2 ^ W - 1
    else compl W ((2 ^ W - 1) >>> count_leading_zeros W mismatch)
  let new_zeros := bits.zeros ||| (match_mask &&& compl W bounds.lo)
  let new_ones := bits.ones ||| (match_mask &&& bounds.lo)
  ⟨decide (new_zeros ≠ bits.zeros ∨ new_ones ≠ bits.ones),
    decide (new_zeros &&& new_ones = 0), ⟨new_zeros, new_ones⟩⟩

/-- The `while (true)` loop of `canonicalize_constraints_simple`, with
explicit fuel (one unit per loop iteration); `none` means the fuel ran
out before the loop exited.  The termination theorem below shows fuel
`W` always suffices. -/
def canon_loop (W : Nat) : Nat → RangeInt → KnownBits → Option SimpleCanonicalResult
  | 0, _, _ => none
  | fuel + 1, bounds, bits =>
    let nbounds := adjust_bounds_from_bits W bounds bits
    if !nbounds.progress || !nbounds.is_result_consistent then
      some ⟨nbounds.is_result_consistent, nbounds.result, bits⟩
    else
      let nbits := adjust_bits_from_bounds W bits nbounds.result
      if !nbits.progress || !nbits.is_result_consistent then
        some ⟨nbits.is_result_consistent, nbounds.result, nbits.result⟩
      else
        canon_loop W fuel nbounds.result nbits.result

/-- `canonicalize_constraints_simple` from rangeinference.cpp: tighten
bounds and bits against each other until neither makes progress.  The
fallback on fuel exhaustion is unreachable (see the termination
theorem). -/
def canonicalize_constraints_simple (W : Nat) (bounds : RangeInt) (bits : KnownBits) :
    SimpleCanonicalResult :=
  let nbits := adjust_bits_from_bounds W bits bounds
  if !nbits.is_result_consistent then
    ⟨false, ⟨0, 0⟩, ⟨0, 0⟩⟩
  else
    match canon_loop W W bounds nbits.result with
    | some r => r
    | none => ⟨false, ⟨0, 0⟩, ⟨0, 0⟩⟩

/-- The signed value of a `W`-bit pattern (two's complement read of a
`U` value as an `S` value). -/
def sval (W x : Nat) : Int := if x < 2 ^ (W - 1) then (x : Int) else (x : Int) - 2 ^ W

/-- `MAX2<S>` on bit patterns: signed maximum. -/
def smax (W a b : Nat) : Nat := if sval W b < sval W a then a else b

/-- `MIN2<S>` on bit patterns: signed minimum. -/
def smin (W a b : Nat) : Nat := if sval W a < sval W b then a else b

/-- `TypeIntPrototype<S, U>::canonicalize_constraints` from
rangeinference.cpp: tighten all constraints of a prototype to canonical
form, splitting a sign-straddling unsigned range into its negative and
non-negative sub-ranges. -/
def TypeIntPrototype.canonicalize_constraints (W : Nat) (t : TypeIntPrototype) :
    CanonicalizedTypeIntPrototype :=
  let srange := t.srange
  let urange0 := t.urange
  if sval W srange.hi < sval W srange.lo ∨ urange0.hi < urange0.lo ∨
      t.bits.zeros &&& t.bits.ones ≠ 0 then
    ⟨false, ⟨⟨0, 0⟩, ⟨0, 0⟩, ⟨0, 0⟩⟩⟩
  else
    let urange :=
      if sval W urange0.hi < sval W urange0.lo then
        if sval W urange0.hi < sval W srange.lo then ⟨urange0.lo, 2 ^ (W - 1) - 1⟩
        else if sval W srange.hi < sval W urange0.lo then (⟨2 ^ (W - 1), urange0.hi⟩ : RangeInt)
        else urange0
      else urange0
    if sval W urange.lo ≤ sval W urange.hi then
      let lo1 := smax W urange.lo srange.lo
      let hi1 := smin W urange.hi srange.hi
      if hi1 < lo1 then
        ⟨false, ⟨⟨0, 0⟩, ⟨0, 0⟩, ⟨0, 0⟩⟩⟩
      else
        let ty := canonicalize_constraints_simple W ⟨lo1, hi1⟩ t.bits
        ⟨ty.present, ⟨ty.bounds, ty.bounds, ty.bits⟩⟩
    else
      let neg_type := canonicalize_constraints_simple W ⟨srange.lo, urange.hi⟩ t.bits
      let pos_type := canonicalize_constraints_simple W ⟨urange.lo, srange.hi⟩ t.bits
      if neg_type.present = false ∧ pos_type.present = false then
        ⟨false, ⟨⟨0, 0⟩, ⟨0, 0⟩, ⟨0, 0⟩⟩⟩
      else if neg_type.present = false then
        ⟨true, ⟨pos_type.bounds, pos_type.bounds, pos_type.bits⟩⟩
      else if pos_type.present = false then
        ⟨true, ⟨neg_type.bounds, neg_type.bounds, neg_type.bits⟩⟩
      else
        ⟨true, ⟨⟨neg_type.bounds.lo, pos_type.bounds.hi⟩,
                ⟨pos_type.bounds.lo, neg_type.bounds.hi⟩,
                ⟨neg_type.bits.zeros &&& pos_type.bits.zeros,
                 neg_type.bits.ones &&& pos_type.bits.ones⟩⟩⟩

/-- Modelled from the spec: `KnownBits::is_satisfied_by` lives in the
missing header `rangeinference.hpp`; the spec's data model describes it
as `(v & zeros) == 0 && (~v & ones) == 0`. -/
def KnownBits.is_satisfied_by (W : Nat) (bits : KnownBits) (v : Nat) : Prop :=
  v &&& bits.zeros = 0 ∧ compl W v &&& bits.ones = 0

instance (W : Nat) (bits : KnownBits) (v : Nat) :
    Decidable (bits.is_satisfied_by W v) := by
  unfold KnownBits.is_satisfied_by; infer_instance

/-- `TypeIntPrototype<S, U>::contains` from rangeinference.cpp: a value
is in the set when it is in the signed range, the unsigned range, and
satisfies the bits. -/
def TypeIntPrototype.contains (W : Nat) (t : TypeIntPrototype) (v : Nat) : Prop :=
  sval W t.srange.lo ≤ sval W v ∧ sval W v ≤ sval W t.srange.hi ∧
    t.urange.lo ≤ v ∧ v ≤ t.urange.hi ∧ t.bits.is_satisfied_by W v

instance (W : Nat) (t : TypeIntPrototype) (v : Nat) : Decidable (t.contains W v) := by
  unfold TypeIntPrototype.contains; infer_instance

/-- Bitwise reading of bit-satisfaction: every bit claimed zero is
clear and every bit claimed one is set. -/
def SatB (zeros ones v : Nat) : Prop :=
  ∀ i, (zeros.testBit i = true → v.testBit i = false) ∧
       (ones.testBit i = true → v.testBit i = true)

/-- The set of bit positions below `W` pinned to a known 0 or 1. -/
def kbits (W : Nat) (bits : KnownBits) : Finset Nat :=
  (Finset.range W).filter fun i => bits.zeros.testBit i = true ∨ bits.ones.testBit i = true

/-! ### The widening operator (C7)

`int_type_widen` itself is in rangeinference.cpp, but its helpers
(`int_type_is_equal`, `int_type_is_subset`, `singleton`, `TYPE_DOMAIN`,
`try_make`, `cardinality_from_bounds`, `Type::WidenMin/WidenMax`) live
in headers that are not part of the repository snapshot; those are
modelled from the spec. -/

/-- `SMALL_TYPEINT_THRESHOLD` from rangeinference.cpp. -/
def SMALL_TYPEINT_THRESHOLD : Nat := 3

/-- Modelled from the spec: the minimum widen hint (`Type::WidenMin`). -/
def WidenMin : Nat := 0

/-- Modelled from the spec: the maximum widen hint (`Type::WidenMax`),
the bounded number of precise widening steps. -/
def WidenMax : Nat := 3

/-- An interned integer type as the widening logic observes it: a
canonical prototype plus a widen hint (`TypeInt`/`TypeLong`). -/
structure IntType where
  proto : TypeIntPrototype
  widen : Nat
deriving DecidableEq

/-- Modelled from the spec: `cardinality_from_bounds` lives in the
missing header; §4.7 of the spec speaks of "the set's cardinality", so
we count the `W`-bit values the prototype contains. -/
def card_set (W : Nat) (t : TypeIntPrototype) : Nat :=
  ((Finset.range (2 ^ W)).filter fun v => t.contains W v).card

/-- `TypeIntPrototype::normalize_widen` from rangeinference.cpp: tiny
sets use the minimum widen hint, the full domain uses the maximum, all
others keep the caller's hint. -/
def TypeIntPrototype.normalize_widen (W : Nat) (t : TypeIntPrototype) (w : Nat) : Nat :=
  if card_set W t ≤ SMALL_TYPEINT_THRESHOLD then WidenMin
  else if t.srange = ⟨2 ^ (W - 1), 2 ^ (W - 1) - 1⟩ ∧ t.urange = ⟨0, 2 ^ W - 1⟩ ∧
      t.bits = ⟨0, 0⟩ then WidenMax
  else w

/-- Modelled from the spec: `CT::TYPE_DOMAIN`, the universal domain for
the width (full signed range, full unsigned range, no known bits,
maximum widen hint). -/
def TYPE_DOMAIN (W : Nat) : IntType :=
  ⟨⟨⟨2 ^ (W - 1), 2 ^ (W - 1) - 1⟩, ⟨0, 2 ^ W - 1⟩, ⟨0, 0⟩⟩, WidenMax⟩

/-- Modelled from the spec: `int_type_is_equal` — structural equality of
the bounds-and-bits triple (the widen hint is not part of the type's
identity). -/
def int_type_is_equal (a b : IntType) : Prop := a.proto = b.proto

instance (a b : IntType) : Decidable (int_type_is_equal a b) := by
  unfold int_type_is_equal; infer_instance

/-- Modelled from the spec: `int_type_is_subset a b` — `a` contains `b`,
i.e. every `W`-bit value of `b`'s set belongs to `a`'s set (the subset
test of §4.8/§4.9). -/
def int_type_is_subset (W : Nat) (a b : IntType) : Prop :=
  ∀ v, v < 2 ^ W → b.proto.contains W v → a.proto.contains W v

instance (W : Nat) (a b : IntType) : Decidable (int_type_is_subset W a b) := by
  unfold int_type_is_subset; infer_instance

/-- Modelled from the spec: `singleton()` — a single-value constant
type. -/
def IntType.singleton (t : IntType) : Prop := t.proto.srange.lo = t.proto.srange.hi

instance (t : IntType) : Decidable t.singleton := by
  unfold IntType.singleton; infer_instance

/-- Modelled from the spec: `CT::try_make` — canonicalize the prototype
(§4.6) and intern it with the normalized widen hint; `none` models the
null result for an empty set. -/
def try_make (W : Nat) (t : TypeIntPrototype) (w : Nat) : Option IntType :=
  let c := t.canonicalize_constraints W
  if c.present then some ⟨c.data, c.data.normalize_widen W w⟩ else none

/-- The prototype built when the widening gives up on bound precision
(the tail of `int_type_widen`): full-width bounds, or the limit type's
bounds when one is supplied, with the bits merged in. -/
def widen_fallback_proto (W : Nat) (new_type : IntType) (limit_type : Option IntType) :
    TypeIntPrototype :=
  match limit_type with
  | none => ⟨⟨2 ^ (W - 1), 2 ^ (W - 1) - 1⟩, ⟨0, 2 ^ W - 1⟩,
      ⟨new_type.proto.bits.zeros, new_type.proto.bits.ones⟩⟩
  | some l => ⟨⟨l.proto.srange.lo, l.proto.srange.hi⟩,
      ⟨l.proto.urange.lo, l.proto.urange.hi⟩,
      ⟨new_type.proto.bits.zeros ||| l.proto.bits.zeros,
       new_type.proto.bits.ones ||| l.proto.bits.ones⟩⟩

/-- `TypeIntHelper::int_type_widen` from rangeinference.cpp: monotonic
widening used by CCP; after `WidenMax` precise attempts the bounds are
abandoned (keeping only the bits, optionally limited by a loop-limit
type). -/
def int_type_widen (W : Nat) (new_type : IntType) (old_type : Option IntType)
    (limit_type : Option IntType) : Option IntType :=
  match old_type with
  | none => some new_type
  | some old =>
    if int_type_is_equal new_type old then some old
    else if int_type_is_subset W old new_type then some old
    else if ¬int_type_is_subset W new_type old then some (TYPE_DOMAIN W)
    else if old.singleton then some new_type
    else if old.widen < new_type.widen then some new_type
    else if new_type.widen < WidenMax then
      try_make W new_type.proto (new_type.widen + 1)
    else
      try_make W (widen_fallback_proto W new_type limit_type) WidenMax

/-- Repeatedly widen against a constant new candidate and a constant
limit, feeding each result back as the old type. -/
def iterate_widen (W : Nat) (new_type : IntType) (limit_type : Option IntType) :
    Nat → Option IntType → Option IntType
  | 0, o => o
  | k + 1, o => iterate_widen W new_type limit_type k (int_type_widen W new_type o limit_type)

/-! ### Bit-level toolkit -/

theorem log2fuel_spec : ∀ f x, 0 < x → x ≤ f →
    2 ^ log2fuel f x ≤ x ∧ x < 2 ^ (log2fuel f x + 1) := by
  intro f
  induction f with
  | zero => intro x hx hf; omega
  | succ f ih =>
    intro x hx hf
    unfold log2fuel
    by_cases h : x < 2
    · simp only [if_pos h]
      constructor
      · simpa using hx
      · simpa using h
    · simp only [if_neg h]
      have hx2 : 0 < x / 2 := by omega
      have hf2 : x / 2 ≤ f := by omega
      obtain ⟨h1, h2⟩ := ih (x / 2) hx2 hf2
      have e1 : 2 ^ (log2fuel f (x / 2) + 1) = 2 * 2 ^ log2fuel f (x / 2) := by
        rw [pow_succ]; ring
      have e2 : 2 ^ (log2fuel f (x / 2) + 1 + 1) = 2 * 2 ^ (log2fuel f (x / 2) + 1) := by
        rw [pow_succ]; ring
      omega

theorem mylog2_spec {x : Nat} (hx : 0 < x) :
    2 ^ mylog2 x ≤ x ∧ x < 2 ^ (mylog2 x + 1) :=
  log2fuel_spec x x hx le_rfl

theorem testBit_mylog2 {x : Nat} (hx : x ≠ 0) : x.testBit (mylog2 x) = true := by
  obtain ⟨h1, h2⟩ := mylog2_spec (Nat.pos_of_ne_zero hx)
  rw [Nat.testBit_to_div_mod]
  have hpow : 0 < 2 ^ mylog2 x := Nat.two_pow_pos _
  have e2 : 2 ^ (mylog2 x + 1) = 2 * 2 ^ mylog2 x := by rw [pow_succ]; ring
  have hdiv : x / 2 ^ mylog2 x = 1 := by
    have hlow : 1 ≤ x / 2 ^ mylog2 x := (Nat.one_le_div_iff hpow).2 h1
    have hhigh : x / 2 ^ mylog2 x < 2 := Nat.div_lt_of_lt_mul (by omega)
    omega
  simp [hdiv]

theorem testBit_gt_mylog2 {x i : Nat} (h : mylog2 x < i) : x.testBit i = false := by
  rcases Nat.eq_zero_or_pos x with hx | hx
  · subst hx; exact Nat.zero_testBit i
  · obtain ⟨h1, h2⟩ := mylog2_spec hx
    have : x < 2 ^ i := lt_of_lt_of_le h2 (Nat.pow_le_pow_right (by omega) (by omega))
    exact Nat.testBit_lt_two_pow this

theorem mylog2_lt_width {x W : Nat} (hx : x ≠ 0) (hW : x < 2 ^ W) : mylog2 x < W := by
  obtain ⟨h1, h2⟩ := mylog2_spec (Nat.pos_of_ne_zero hx)
  by_contra hcon
  have : 2 ^ W ≤ 2 ^ mylog2 x := Nat.pow_le_pow_right (by omega) (by omega)
  omega

theorem eq_zero_of_all_testBit {x : Nat} (h : ∀ i, x.testBit i = false) : x = 0 :=
  Nat.eq_of_testBit_eq fun i => by rw [h i, Nat.zero_testBit]

theorem land_eq_zero_iff {x y : Nat} :
    x &&& y = 0 ↔ ∀ i, ¬(x.testBit i = true ∧ y.testBit i = true) := by
  constructor
  · intro h i ⟨hx, hy⟩
    have : (x &&& y).testBit i = false := by rw [h]; exact Nat.zero_testBit i
    rw [Nat.testBit_land, hx, hy] at this
    simp at this
  · intro h
    refine eq_zero_of_all_testBit fun i => ?_
    rw [Nat.testBit_land]
    cases hx : x.testBit i with
    | false => simp
    | true =>
      cases hy : y.testBit i with
      | false => simp
      | true => exact absurd ⟨hx, hy⟩ (h i)

theorem lt_two_pow_of_all_testBit {x W : Nat} (h : ∀ i, W ≤ i → x.testBit i = false) :
    x < 2 ^ W := by
  by_contra hcon
  have hx : x ≠ 0 := by have := Nat.two_pow_pos W; omega
  obtain ⟨h1, h2⟩ := mylog2_spec (Nat.pos_of_ne_zero hx)
  have hWle : W ≤ mylog2 x := by
    by_contra hlt
    have : 2 ^ (mylog2 x + 1) ≤ 2 ^ W := Nat.pow_le_pow_right (by omega) (by omega)
    omega
  have := h (mylog2 x) hWle
  rw [testBit_mylog2 hx] at this
  exact Bool.noConfusion this

theorem testBit_ge_width {x W i : Nat} (hx : x < 2 ^ W) (h : W ≤ i) :
    x.testBit i = false :=
  Nat.testBit_lt_two_pow (lt_of_lt_of_le hx (Nat.pow_le_pow_right (by omega) h))

theorem testBit_compl {W x : Nat} (hx : x < 2 ^ W) (i : Nat) :
    (compl W x).testBit i = (decide (i < W) && !(x.testBit i)) := by
  unfold compl
  rw [Nat.testBit_xor, Nat.testBit_two_pow_sub_one]
  by_cases hi : i < W
  · cases h : x.testBit i <;> simp [hi, h]
  · rw [testBit_ge_width hx (Nat.not_lt.1 hi)]
    simp [hi]

theorem compl_lt {W x : Nat} (hx : x < 2 ^ W) : compl W x < 2 ^ W := by
  refine lt_two_pow_of_all_testBit fun i hi => ?_
  rw [testBit_compl hx]
  simp [Nat.not_lt.2 hi]

theorem compl_compl {W x : Nat} (hx : x < 2 ^ W) : compl W (compl W x) = x := by
  refine Nat.eq_of_testBit_eq fun i => ?_
  rw [testBit_compl (compl_lt hx), testBit_compl hx]
  by_cases hi : i < W
  · simp [hi]
  · simp [hi, testBit_ge_width hx (Nat.not_lt.1 hi)]

theorem lor_lt {x y W : Nat} (hx : x < 2 ^ W) (hy : y < 2 ^ W) : x ||| y < 2 ^ W := by
  refine lt_two_pow_of_all_testBit fun i hi => ?_
  rw [Nat.testBit_lor, testBit_ge_width hx hi, testBit_ge_width hy hi]
  rfl

theorem land_lt_left {x W : Nat} (hx : x < 2 ^ W) (y : Nat) : x &&& y < 2 ^ W :=
  lt_of_le_of_lt Nat.and_le_left hx

theorem exists_top_diff {a b : Nat} (h : a ≠ b) :
    ∃ p, a.testBit p ≠ b.testBit p ∧ ∀ q, p < q → a.testBit q = b.testBit q := by
  have hd : a ^^^ b ≠ 0 := fun hc => h (Nat.xor_eq_zero.1 hc)
  refine ⟨mylog2 (a ^^^ b), ?_, ?_⟩
  · have := testBit_mylog2 hd
    rw [Nat.testBit_xor] at this
    intro hc
    rw [hc] at this
    simp at this
  · intro q hq
    have := testBit_gt_mylog2 (x := a ^^^ b) hq
    rw [Nat.testBit_xor] at this
    cases ha : a.testBit q <;> cases hb : b.testBit q <;> simp [ha, hb] at this ⊢

theorem lt_top_diff {a b : Nat} (h : a < b) :
    ∃ p, a.testBit p = false ∧ b.testBit p = true ∧
      ∀ q, p < q → a.testBit q = b.testBit q := by
  obtain ⟨p, hne, habove⟩ := exists_top_diff (Nat.ne_of_lt h)
  cases ha : a.testBit p with
  | false =>
    cases hb : b.testBit p with
    | false => rw [ha, hb] at hne; exact absurd rfl hne
    | true => exact ⟨p, ha, hb, habove⟩
  | true =>
    cases hb : b.testBit p with
    | false =>
      have : b < a := Nat.lt_of_testBit p hb ha fun j hj => (habove j hj).symm
      omega
    | true => rw [ha, hb] at hne; exact absurd rfl hne

theorem le_of_testBit_subset {x y : Nat}
    (h : ∀ i, x.testBit i = true → y.testBit i = true) : x ≤ y := by
  by_contra hcon
  obtain ⟨p, hy, hx, habove⟩ := lt_top_diff (Nat.not_le.1 hcon)
  rw [h p hx] at hy
  exact Bool.noConfusion hy

theorem div_two_land (a b : Nat) : (a &&& b) / 2 = a / 2 &&& (b / 2) := by
  refine Nat.eq_of_testBit_eq fun i => ?_
  rw [← Nat.testBit_succ, Nat.testBit_land, Nat.testBit_land,
    ← Nat.testBit_succ, ← Nat.testBit_succ]

theorem div_two_lor (a b : Nat) : (a ||| b) / 2 = a / 2 ||| b / 2 := by
  refine Nat.eq_of_testBit_eq fun i => ?_
  rw [← Nat.testBit_succ, Nat.testBit_lor, Nat.testBit_lor,
    ← Nat.testBit_succ, ← Nat.testBit_succ]

theorem mod_two_eq_one_iff_testBit {x : Nat} : x % 2 = 1 ↔ x.testBit 0 = true := by
  rw [Nat.testBit_zero]
  simp

theorem add_eq_lor : ∀ a b : Nat, a &&& b = 0 → a + b = a ||| b := by
  intro a
  induction a using Nat.strong_induction_on with
  | _ a ih =>
    intro b hab
    rcases Nat.eq_zero_or_pos a with ha | ha
    · subst ha; rw [Nat.zero_or, Nat.zero_add]
    · have hbit0 : ¬(a % 2 = 1 ∧ b % 2 = 1) := by
        intro ⟨h1, h2⟩
        have := land_eq_zero_iff.1 hab 0
        exact this ⟨mod_two_eq_one_iff_testBit.1 h1, mod_two_eq_one_iff_testBit.1 h2⟩
      have hdiv : a / 2 &&& (b / 2) = 0 := by
        rw [← div_two_land, hab, Nat.zero_div]
      have hihd : a / 2 + b / 2 = a / 2 ||| b / 2 :=
        ih (a / 2) (Nat.div_lt_self ha (by omega)) (b / 2) hdiv
      have hmod : (a ||| b) % 2 = 1 ↔ (a % 2 = 1 ∨ b % 2 = 1) := by
        rw [mod_two_eq_one_iff_testBit, Nat.testBit_lor]
        rw [mod_two_eq_one_iff_testBit, mod_two_eq_one_iff_testBit]
        cases ha0 : a.testBit 0 <;> cases hb0 : b.testBit 0 <;> simp
      have hor : a ||| b = 2 * ((a ||| b) / 2) + (a ||| b) % 2 := by omega
      rw [div_two_lor, ← hihd] at hor
      have hma : a % 2 < 2 := Nat.mod_lt _ (by omega)
      have hmb : b % 2 < 2 := Nat.mod_lt _ (by omega)
      have hda : a = 2 * (a / 2) + a % 2 := by omega
      have hdb : b = 2 * (b / 2) + b % 2 := by omega
      omega

theorem two_pow_sub_two_pow_eq {p W : Nat} (hpW : p ≤ W) :
    2 ^ W - 2 ^ p = (2 ^ (W - p) - 1) <<< p := by
  rw [Nat.shiftLeft_eq, Nat.sub_mul, one_mul, ← pow_add]
  congr 2
  omega

theorem testBit_two_pow_sub_two_pow {p W : Nat} (hpW : p ≤ W) (i : Nat) :
    (2 ^ W - 2 ^ p).testBit i = (decide (p ≤ i) && decide (i < W)) := by
  rw [two_pow_sub_two_pow_eq hpW, Nat.testBit_shiftLeft, Nat.testBit_two_pow_sub_one]
  by_cases h1 : p ≤ i
  · have e1 : decide (i ≥ p) = true := by simp [h1]
    rw [e1, Bool.true_and, Bool.true_and, decide_eq_decide]
    omega
  · have e1 : decide (i ≥ p) = false := by simp [h1]
    rw [e1, Bool.false_and, Bool.false_and]

theorem width_of_testBit {x W i : Nat} (hx : x < 2 ^ W) (h : x.testBit i = true) :
    i < W := by
  by_contra hcon
  rw [testBit_ge_width hx (Nat.not_lt.1 hcon)] at h
  exact Bool.noConfusion h

theorem is_satisfied_by_iff {W : Nat} {bits : KnownBits} {v : Nat}
    (hv : v < 2 ^ W) (ho : bits.ones < 2 ^ W) :
    bits.is_satisfied_by W v ↔ SatB bits.zeros bits.ones v := by
  unfold KnownBits.is_satisfied_by SatB
  constructor
  · intro ⟨hz, hone⟩ i
    constructor
    · intro hzi
      cases hvi : v.testBit i with
      | false => rfl
      | true => exact absurd ⟨hvi, hzi⟩ (land_eq_zero_iff.1 hz i)
    · intro hoi
      cases hvi : v.testBit i with
      | true => rfl
      | false =>
        have hiW : i < W := width_of_testBit ho hoi
        have hci : (compl W v).testBit i = true := by
          rw [testBit_compl hv, hvi]
          simp [hiW]
        exact absurd ⟨hci, hoi⟩ (land_eq_zero_iff.1 hone i)
  · intro h
    constructor
    · refine land_eq_zero_iff.2 fun i ⟨hvi, hzi⟩ => ?_
      rw [(h i).1 hzi] at hvi
      exact Bool.noConfusion hvi
    · refine land_eq_zero_iff.2 fun i ⟨hci, hoi⟩ => ?_
      rw [testBit_compl hv, (h i).2 hoi] at hci
      simp at hci

theorem land_two_complement : ∀ a n : Nat, a < 2 ^ n → a &&& (2 ^ n - 1 - a) = 0 := by
  intro a
  induction a using Nat.strong_induction_on with
  | _ a ih =>
    intro n ha
    rcases Nat.eq_zero_or_pos a with h0 | h0
    · subst h0; exact Nat.zero_and _
    · have hn : n ≠ 0 := by
        intro h; subst h; simp at ha; omega
      have epow : 2 ^ n = 2 * 2 ^ (n - 1) := by
        conv_lhs => rw [show n = (n - 1) + 1 by omega]
        rw [pow_succ]; ring
      refine eq_zero_of_all_testBit fun i => ?_
      match i with
      | 0 =>
        rw [Nat.testBit_land, Nat.testBit_zero, Nat.testBit_zero]
        have hb : (2 ^ n - 1 - a) % 2 = 1 - a % 2 := by omega
        have ha2 : a % 2 = 0 ∨ a % 2 = 1 := by omega
        rcases ha2 with h | h <;> simp [h, hb]
      | j + 1 =>
        rw [Nat.testBit_succ, div_two_land]
        have hdivb : (2 ^ n - 1 - a) / 2 = 2 ^ (n - 1) - 1 - a / 2 := by omega
        have hdiva : a / 2 < 2 ^ (n - 1) := by omega
        rw [hdivb, ih (a / 2) (Nat.div_lt_self h0 (by omega)) (n - 1) hdiva]
        exact Nat.zero_testBit j

theorem two_mul_land (a b : Nat) : 2 * a &&& 2 * b = 2 * (a &&& b) := by
  refine Nat.eq_of_testBit_eq fun i => ?_
  match i with
  | 0 =>
    rw [Nat.testBit_land, Nat.testBit_zero, Nat.testBit_zero, Nat.testBit_zero]
    simp [Nat.mul_mod_right]
  | j + 1 =>
    rw [Nat.testBit_succ, Nat.testBit_succ, div_two_land,
      Nat.mul_div_cancel_left a (by omega : 0 < 2),
      Nat.mul_div_cancel_left b (by omega : 0 < 2),
      Nat.mul_div_cancel_left (a &&& b) (by omega : 0 < 2)]

theorem land_neg_eq_pow : ∀ x W : Nat, x ≠ 0 → x < 2 ^ W →
    ∃ i, x &&& negW W x = 2 ^ i ∧ x.testBit i = true ∧
      ∀ j, j < i → x.testBit j = false := by
  intro x
  induction x using Nat.strong_induction_on with
  | _ x ih =>
    intro W hx0 hxW
    have hx : 0 < x := Nat.pos_of_ne_zero hx0
    have hW : W ≠ 0 := by
      intro h; subst h; simp at hxW; omega
    have epow : 2 ^ W = 2 * 2 ^ (W - 1) := by
      conv_lhs => rw [show W = (W - 1) + 1 by omega]
      rw [pow_succ]; ring
    have hneg : negW W x = 2 ^ W - x := by
      unfold negW
      exact Nat.mod_eq_of_lt (by omega)
    rcases Nat.even_or_odd x with heven | hodd
    · obtain ⟨y, hy⟩ := heven
      have hy2 : x = 2 * y := by omega
      have hy0 : y ≠ 0 := by omega
      have hyW : y < 2 ^ (W - 1) := by omega
      obtain ⟨i, hland, hbit, hmin⟩ := ih y (by omega) (W - 1) hy0 hyW
      have hnegy : negW (W - 1) y = 2 ^ (W - 1) - y := by
        unfold negW
        exact Nat.mod_eq_of_lt (by omega)
      rw [hnegy] at hland
      refine ⟨i + 1, ?_, ?_, ?_⟩
      · rw [hneg, hy2]
        have e1 : 2 ^ W - 2 * y = 2 * (2 ^ (W - 1) - y) := by omega
        rw [e1, two_mul_land, hland, pow_succ]; ring
      · rw [hy2, Nat.testBit_succ, Nat.mul_div_cancel_left y (by omega : 0 < 2)]
        exact hbit
      · intro j hj
        match j with
        | 0 =>
          rw [hy2, Nat.testBit_zero]
          simp [Nat.mul_mod_right]
        | k + 1 =>
          rw [hy2, Nat.testBit_succ, Nat.mul_div_cancel_left y (by omega : 0 < 2)]
          exact hmin k (by omega)
    · refine ⟨0, ?_, ?_, fun j hj => absurd hj (by omega)⟩
      · rw [hneg]
        refine Nat.eq_of_testBit_eq fun i => ?_
        match i with
        | 0 =>
          rw [Nat.testBit_land, Nat.testBit_zero, Nat.testBit_zero]
          have h1 : x % 2 = 1 := Nat.odd_iff.1 hodd
          have h2 : (2 ^ W - x) % 2 = 1 := by omega
          simp [h1, h2]
        | j + 1 =>
          rw [Nat.testBit_succ, div_two_land]
          have h1 : x % 2 = 1 := Nat.odd_iff.1 hodd
          have hdivb : (2 ^ W - x) / 2 = 2 ^ (W - 1) - 1 - x / 2 := by omega
          have hdiva : x / 2 < 2 ^ (W - 1) := by omega
          rw [hdivb, land_two_complement (x / 2) (W - 1) hdiva]
          rw [Nat.testBit_two_pow]
          simp
      · rw [Nat.testBit_zero, Nat.odd_iff.1 hodd]
        rfl

/-! ### Correctness of `adjust_lo` -/

theorem band_true {a b : Bool} (h : (a && b) = true) : a = true ∧ b = true := by
  cases a <;> cases b <;> simp_all

theorem adjust_min_helper {lo r i : Nat} {bits : KnownBits}
    (hhigh : ∀ q, i < q → r.testBit q = lo.testBit q)
    (hat : r.testBit i = true)
    (hlow : ∀ q, q < i → r.testBit q = bits.ones.testBit q)
    (hviox : ∃ q, (bits.zeros.testBit q = true ∧ lo.testBit q = true) ∨
                  (bits.ones.testBit q = true ∧ lo.testBit q = false))
    (hmin : ∀ k, k < i → lo.testBit k = false → bits.zeros.testBit k = false →
        ∃ q, k < q ∧ ((bits.zeros.testBit q = true ∧ lo.testBit q = true) ∨
                      (bits.ones.testBit q = true ∧ lo.testBit q = false))) :
    ∀ v, lo ≤ v → SatB bits.zeros bits.ones v → r ≤ v := by
  intro v hlov hsat
  by_contra hcon
  obtain ⟨q, hvq, hrq, habove⟩ := lt_top_diff (Nat.not_le.1 hcon)
  rcases lt_trichotomy q i with hqi | hqi | hqi
  · have hone : bits.ones.testBit q = true := by rw [← hlow q hqi]; exact hrq
    have := (hsat q).2 hone
    rw [this] at hvq
    exact Bool.noConfusion hvq
  · subst hqi
    rcases Nat.lt_or_ge lo v with hlt | hge
    · obtain ⟨k, hlok, hvk, habk⟩ := lt_top_diff hlt
      rcases lt_trichotomy k q with hkq | hkq | hkq
      · have hzk : bits.zeros.testBit k = false := by
          cases hzc : bits.zeros.testBit k with
          | false => rfl
          | true => rw [(hsat k).1 hzc] at hvk; exact Bool.noConfusion hvk
        obtain ⟨q2, hq2, hviol⟩ := hmin k hkq hlok hzk
        have hvq2 : v.testBit q2 = lo.testBit q2 := (habk q2 hq2).symm
        rcases hviol with ⟨hz2, hl2⟩ | ⟨ho2, hl2⟩
        · have := (hsat q2).1 hz2
          rw [hvq2, hl2] at this
          exact Bool.noConfusion this
        · have := (hsat q2).2 ho2
          rw [hvq2, hl2] at this
          exact Bool.noConfusion this
      · subst hkq
        rw [hvk] at hvq
        exact Bool.noConfusion hvq
      · have := habove k hkq
        rw [hvk, hhigh k hkq, hlok] at this
        exact Bool.noConfusion this
    · have hveq : v = lo := le_antisymm hge hlov
      subst hveq
      obtain ⟨q2, hviol⟩ := hviox
      rcases hviol with ⟨hz2, hl2⟩ | ⟨ho2, hl2⟩
      · have := (hsat q2).1 hz2
        rw [hl2] at this
        exact Bool.noConfusion this
      · have := (hsat q2).2 ho2
        rw [hl2] at this
        exact Bool.noConfusion this
  · have hloq : lo.testBit q = true := by rw [← hhigh q hqi]; exact hrq
    have : v < lo := Nat.lt_of_testBit q hvq hloq fun j hj => by
      rw [habove j hj, hhigh j (by omega)]
    omega

theorem adjust_expr_eq {W lo p : Nat} (hlo : lo < 2 ^ W) (hpW : p < W)
    (hbit : lo.testBit p = false) :
    ((lo &&& negW W (2 ^ p)) + 2 ^ p) % 2 ^ W = (lo &&& (2 ^ W - 2 ^ p)) ||| 2 ^ p := by
  have hplt : 2 ^ p < 2 ^ W := Nat.pow_lt_pow_right (by omega) hpW
  have hneg : negW W (2 ^ p) = 2 ^ W - 2 ^ p := by
    unfold negW
    exact Nat.mod_eq_of_lt (by have := Nat.two_pow_pos p; omega)
  have hdisj : (lo &&& (2 ^ W - 2 ^ p)) &&& 2 ^ p = 0 := by
    refine land_eq_zero_iff.2 fun i ⟨h1, h2⟩ => ?_
    rw [Nat.testBit_two_pow] at h2
    have hp : p = i := of_decide_eq_true h2
    subst hp
    rw [Nat.testBit_land, hbit] at h1
    simp at h1
  rw [hneg, add_eq_lor _ _ hdisj]
  exact Nat.mod_eq_of_lt (lor_lt (land_lt_left hlo _) hplt)

theorem adjust_expr_testBit {W lo p : Nat} (hlo : lo < 2 ^ W) (hpW : p < W) (i : Nat) :
    ((lo &&& (2 ^ W - 2 ^ p)) ||| 2 ^ p).testBit i =
      ((lo.testBit i && decide (p ≤ i)) || decide (i = p)) := by
  rw [Nat.testBit_lor, Nat.testBit_land,
    testBit_two_pow_sub_two_pow (le_of_lt hpW), Nat.testBit_two_pow]
  by_cases hiW : i < W
  · have e1 : decide (i < W) = true := decide_eq_true hiW
    rw [e1, Bool.and_true]
    have e2 : (decide (p = i)) = (decide (i = p)) := by
      simp [eq_comm]
    rw [e2]
  · have e0 : lo.testBit i = false := testBit_ge_width hlo (Nat.not_lt.1 hiW)
    have e1 : decide (i < W) = false := decide_eq_false hiW
    have e2 : decide (p = i) = false := decide_eq_false (by omega)
    have e3 : decide (i = p) = false := decide_eq_false (by omega)
    rw [e0, e1, e2, e3]
    simp

theorem branch_aux {W lo p r : Nat} {bits : KnownBits}
    (hlo : lo < 2 ^ W) (ho : bits.ones < 2 ^ W)
    (hdisj : bits.zeros &&& bits.ones = 0)
    (hpW : p < W)
    (hlop : lo.testBit p = false)
    (hzp : bits.zeros.testBit p = false)
    (hcleanZ : ∀ q, p < q → bits.zeros.testBit q = true → lo.testBit q = false)
    (hcleanO : ∀ q, p < q → bits.ones.testBit q = true → lo.testBit q = true)
    (hviox : ∃ q, (bits.zeros.testBit q = true ∧ lo.testBit q = true) ∨
                  (bits.ones.testBit q = true ∧ lo.testBit q = false))
    (hmin : ∀ k, k < p → lo.testBit k = false → bits.zeros.testBit k = false →
        ∃ q, k < q ∧ ((bits.zeros.testBit q = true ∧ lo.testBit q = true) ∨
                      (bits.ones.testBit q = true ∧ lo.testBit q = false)))
    (hr : r = (lo &&& (2 ^ W - 2 ^ p)) ||| 2 ^ p ||| bits.ones) :
    lo < r ∧ r < 2 ^ W ∧ SatB bits.zeros bits.ones r ∧
      ∀ v, lo ≤ v → SatB bits.zeros bits.ones v → r ≤ v := by
  have hrbit : ∀ i, r.testBit i =
      ((lo.testBit i && decide (p ≤ i)) || decide (i = p) || bits.ones.testBit i) := by
    intro i
    rw [hr, Nat.testBit_lor, adjust_expr_testBit hlo hpW]
  have hhigh : ∀ q, p < q → r.testBit q = lo.testBit q := by
    intro q hq
    rw [hrbit q]
    have e1 : decide (p ≤ q) = true := decide_eq_true (by omega)
    have e2 : decide (q = p) = false := decide_eq_false (by omega)
    rw [e1, e2, Bool.and_true, Bool.or_false]
    cases hoq : bits.ones.testBit q with
    | false => rw [Bool.or_false]
    | true => rw [hcleanO q hq hoq]; rfl
  have hat : r.testBit p = true := by
    rw [hrbit p]
    have e : decide (p = p) = true := decide_eq_true rfl
    rw [e]
    simp
  have hlow : ∀ q, q < p → r.testBit q = bits.ones.testBit q := by
    intro q hq
    rw [hrbit q]
    have e1 : decide (p ≤ q) = false := decide_eq_false (by omega)
    have e2 : decide (q = p) = false := decide_eq_false (by omega)
    rw [e1, e2, Bool.and_false]
    simp
  have hrW : r < 2 ^ W := by
    rw [hr]
    exact lor_lt (lor_lt (land_lt_left hlo _) (Nat.pow_lt_pow_right (by omega) hpW)) ho
  have hlt : lo < r := Nat.lt_of_testBit p hlop hat fun j hj => (hhigh j hj).symm
  have hsatr : SatB bits.zeros bits.ones r := by
    intro i
    constructor
    · intro hzi
      rcases lt_trichotomy i p with h | h | h
      · rw [hlow i h]
        cases hoi : bits.ones.testBit i with
        | false => rfl
        | true => exact absurd ⟨hzi, hoi⟩ (land_eq_zero_iff.1 hdisj i)
      · subst h
        rw [hzi] at hzp
        exact Bool.noConfusion hzp
      · rw [hhigh i h]
        exact hcleanZ i h hzi
    · intro hoi
      rcases lt_trichotomy i p with h | h | h
      · rw [hlow i h]; exact hoi
      · subst h; exact hat
      · rw [hhigh i h]; exact hcleanO i h hoi
  exact ⟨hlt, hrW, hsatr, adjust_min_helper hhigh hat hlow hviox hmin⟩

theorem adjust_lo_eq_case {W lo : Nat} {bits : KnownBits} (hlo : lo < 2 ^ W)
    (h : lo &&& bits.zeros = compl W lo &&& bits.ones) :
    lo &&& bits.zeros = 0 ∧ compl W lo &&& bits.ones = 0 ∧ adjust_lo W lo bits = lo := by
  have hdd : (lo &&& bits.zeros) &&& (compl W lo &&& bits.ones) = 0 := by
    refine land_eq_zero_iff.2 fun i ⟨h1, h2⟩ => ?_
    rw [Nat.testBit_land] at h1 h2
    obtain ⟨hl, -⟩ := band_true h1
    obtain ⟨hc, -⟩ := band_true h2
    rw [testBit_compl hlo, hl] at hc
    simp at hc
  rw [← h, Nat.and_self] at hdd
  refine ⟨hdd, by rw [← h]; exact hdd, ?_⟩
  simp only [adjust_lo]
  rw [if_pos h]

theorem adjust_lo_lt_case {W lo : Nat} {bits : KnownBits}
    (hlo : lo < 2 ^ W) (ho : bits.ones < 2 ^ W)
    (hdisj : bits.zeros &&& bits.ones = 0)
    (hB : lo &&& bits.zeros < compl W lo &&& bits.ones) :
    lo < adjust_lo W lo bits ∧ adjust_lo W lo bits < 2 ^ W ∧
      SatB bits.zeros bits.ones (adjust_lo W lo bits) ∧
      ∀ v, lo ≤ v → SatB bits.zeros bits.ones v → adjust_lo W lo bits ≤ v := by
  have hov0 : compl W lo &&& bits.ones ≠ 0 := by omega
  have hovW : compl W lo &&& bits.ones < 2 ^ W := land_lt_left (compl_lt hlo) _
  have hpW : mylog2 (compl W lo &&& bits.ones) < W := mylog2_lt_width hov0 hovW
  have hov_p : (compl W lo &&& bits.ones).testBit (mylog2 (compl W lo &&& bits.ones)) = true :=
    testBit_mylog2 hov0
  rw [Nat.testBit_land, testBit_compl hlo] at hov_p
  obtain ⟨h1, honep⟩ := band_true hov_p
  obtain ⟨-, h3⟩ := band_true h1
  have hlop : lo.testBit (mylog2 (compl W lo &&& bits.ones)) = false := by
    simpa using h3
  have hzp : bits.zeros.testBit (mylog2 (compl W lo &&& bits.ones)) = false := by
    cases hzc : bits.zeros.testBit (mylog2 (compl W lo &&& bits.ones)) with
    | false => rfl
    | true => exact absurd ⟨hzc, honep⟩ (land_eq_zero_iff.1 hdisj _)
  have hcleanZ : ∀ q, mylog2 (compl W lo &&& bits.ones) < q →
      bits.zeros.testBit q = true → lo.testBit q = false := by
    intro q hq hzq
    have hzvlt : lo &&& bits.zeros < 2 ^ q := by
      have h2 := (mylog2_spec (Nat.pos_of_ne_zero hov0)).2
      have h4 : 2 ^ (mylog2 (compl W lo &&& bits.ones) + 1) ≤ 2 ^ q :=
        Nat.pow_le_pow_right (by omega) (by omega)
      omega
    have hzvq := Nat.testBit_lt_two_pow hzvlt
    rw [Nat.testBit_land] at hzvq
    cases hlq : lo.testBit q with
    | false => rfl
    | true => rw [hlq, hzq] at hzvq; exact Bool.noConfusion hzvq
  have hcleanO : ∀ q, mylog2 (compl W lo &&& bits.ones) < q →
      bits.ones.testBit q = true → lo.testBit q = true := by
    intro q hq hoq
    have hovq : (compl W lo &&& bits.ones).testBit q = false := testBit_gt_mylog2 hq
    rw [Nat.testBit_land, testBit_compl hlo, hoq] at hovq
    have hqW : q < W := width_of_testBit ho hoq
    simpa [hqW] using hovq
  have heq : adjust_lo W lo bits =
      (lo &&& (2 ^ W - 2 ^ mylog2 (compl W lo &&& bits.ones)))
        ||| 2 ^ mylog2 (compl W lo &&& bits.ones) ||| bits.ones := by
    simp only [adjust_lo]
    rw [if_neg (by omega : ¬(lo &&& bits.zeros = compl W lo &&& bits.ones)), if_pos hB]
    have e1 : W - 1 - count_leading_zeros W (compl W lo &&& bits.ones) =
        mylog2 (compl W lo &&& bits.ones) := by
      unfold count_leading_zeros
      rw [if_neg hov0]
      omega
    rw [e1]
    have e2 : (1 <<< mylog2 (compl W lo &&& bits.ones)) % 2 ^ W =
        2 ^ mylog2 (compl W lo &&& bits.ones) := by
      rw [Nat.shiftLeft_eq, one_mul]
      exact Nat.mod_eq_of_lt (Nat.pow_lt_pow_right (by omega) hpW)
    rw [e2, adjust_expr_eq hlo hpW hlop]
  exact branch_aux hlo ho hdisj hpW hlop hzp hcleanZ hcleanO
    ⟨_, Or.inr ⟨honep, hlop⟩⟩
    (fun k hk _ _ => ⟨_, hk, Or.inr ⟨honep, hlop⟩⟩) heq

theorem adjust_lo_gt_case {W lo : Nat} {bits : KnownBits}
    (hlo : lo < 2 ^ W) (hz : bits.zeros < 2 ^ W) (ho : bits.ones < 2 ^ W)
    (hdisj : bits.zeros &&& bits.ones = 0)
    (hC : compl W lo &&& bits.ones < lo &&& bits.zeros) :
    (lo < adjust_lo W lo bits ∧ adjust_lo W lo bits < 2 ^ W ∧
        SatB bits.zeros bits.ones (adjust_lo W lo bits) ∧
        ∀ v, lo ≤ v → SatB bits.zeros bits.ones v → adjust_lo W lo bits ≤ v) ∨
      (adjust_lo W lo bits = bits.ones ∧ adjust_lo W lo bits < lo ∧
        ∀ v, v < 2 ^ W → lo ≤ v → ¬SatB bits.zeros bits.ones v) := by
  have hzv0 : lo &&& bits.zeros ≠ 0 := by omega
  have hzvW : lo &&& bits.zeros < 2 ^ W := land_lt_left hlo _
  have hmW : mylog2 (lo &&& bits.zeros) < W := mylog2_lt_width hzv0 hzvW
  have hzv_m := testBit_mylog2 hzv0
  rw [Nat.testBit_land] at hzv_m
  obtain ⟨hlom, hzm⟩ := band_true hzv_m
  have hom : bits.ones.testBit (mylog2 (lo &&& bits.zeros)) = false := by
    cases hoc : bits.ones.testBit (mylog2 (lo &&& bits.zeros)) with
    | false => rfl
    | true => exact absurd ⟨hzm, hoc⟩ (land_eq_zero_iff.1 hdisj _)
  have hcleanZ : ∀ q, mylog2 (lo &&& bits.zeros) < q →
      bits.zeros.testBit q = true → lo.testBit q = false := by
    intro q hq hzq
    have hzvq : (lo &&& bits.zeros).testBit q = false := testBit_gt_mylog2 hq
    rw [Nat.testBit_land, hzq] at hzvq
    simpa using hzvq
  have hcleanO : ∀ q, mylog2 (lo &&& bits.zeros) < q →
      bits.ones.testBit q = true → lo.testBit q = true := by
    intro q hq hoq
    have hovlt : compl W lo &&& bits.ones < 2 ^ q := by
      have h2 := (mylog2_spec (Nat.pos_of_ne_zero hzv0)).2
      have h4 : 2 ^ (mylog2 (lo &&& bits.zeros) + 1) ≤ 2 ^ q :=
        Nat.pow_le_pow_right (by omega) (by omega)
      omega
    have hovq := Nat.testBit_lt_two_pow hovlt
    rw [Nat.testBit_land, testBit_compl hlo, hoq] at hovq
    have hqW : q < W := width_of_testBit ho hoq
    simpa [hqW] using hovq
  have hfv : W - count_leading_zeros W (lo &&& bits.zeros) =
      mylog2 (lo &&& bits.zeros) + 1 := by
    unfold count_leading_zeros
    rw [if_neg hzv0]
    omega
  have hfm : ∀ x, (((2 ^ W - 1) <<< (mylog2 (lo &&& bits.zeros) + 1)) % 2 ^ W).testBit x =
      (decide (mylog2 (lo &&& bits.zeros) < x) && decide (x < W)) := by
    intro x
    rw [Nat.testBit_mod_two_pow, Nat.testBit_shiftLeft, Nat.testBit_two_pow_sub_one]
    by_cases h1 : x < W
    · by_cases h2 : mylog2 (lo &&& bits.zeros) + 1 ≤ x
      · rw [decide_eq_true h1, decide_eq_true (show x ≥ mylog2 (lo &&& bits.zeros) + 1 from h2),
          decide_eq_true (show x - (mylog2 (lo &&& bits.zeros) + 1) < W by omega),
          decide_eq_true (show mylog2 (lo &&& bits.zeros) < x by omega)]
        rfl
      · rw [decide_eq_false (show ¬(x ≥ mylog2 (lo &&& bits.zeros) + 1) from h2),
          decide_eq_false (show ¬(mylog2 (lo &&& bits.zeros) < x) by omega)]
        simp
    · rw [decide_eq_false h1]
      simp
  have heitherW : lo ||| bits.zeros < 2 ^ W := lor_lt hlo hz
  have htmpbit : ∀ x, (compl W (lo ||| bits.zeros) &&&
      (((2 ^ W - 1) <<< (mylog2 (lo &&& bits.zeros) + 1)) % 2 ^ W)).testBit x = true ↔
      (mylog2 (lo &&& bits.zeros) < x ∧ x < W ∧ lo.testBit x = false ∧
        bits.zeros.testBit x = false) := by
    intro x
    rw [Nat.testBit_land, testBit_compl heitherW, Nat.testBit_lor, hfm x]
    constructor
    · intro h
      obtain ⟨h1, h2⟩ := band_true h
      obtain ⟨-, h4⟩ := band_true h1
      obtain ⟨h5, h6⟩ := band_true h2
      refine ⟨of_decide_eq_true h5, of_decide_eq_true h6, ?_, ?_⟩
      · cases hl : lo.testBit x with
        | false => rfl
        | true => rw [hl] at h4; simp at h4
      · cases hzc : bits.zeros.testBit x with
        | false => rfl
        | true => rw [hzc] at h4; simp at h4
    · intro ⟨hmx, hxW, hlx, hzx⟩
      rw [hlx, hzx, decide_eq_true hmx, decide_eq_true hxW]
      rfl
  by_cases htmp : compl W (lo ||| bits.zeros) &&&
      (((2 ^ W - 1) <<< (mylog2 (lo &&& bits.zeros) + 1)) % 2 ^ W) = 0
  · right
    have hneg0 : negW W 0 = 0 := by
      unfold negW
      rw [Nat.sub_zero, Nat.mod_self]
    have heq : adjust_lo W lo bits = bits.ones := by
      simp only [adjust_lo]
      rw [if_neg (by omega : ¬(lo &&& bits.zeros = compl W lo &&& bits.ones)),
        if_neg (by omega : ¬(lo &&& bits.zeros < compl W lo &&& bits.ones)), hfv, htmp,
        Nat.zero_and, hneg0, Nat.and_zero, Nat.add_zero, Nat.zero_mod, Nat.zero_or]
    refine ⟨heq, ?_, ?_⟩
    · rw [heq]
      rcases lt_trichotomy bits.ones lo with h | h | h
      · exact h
      · exfalso
        rw [h, hlom] at hom
        exact Bool.noConfusion hom
      · exfalso
        obtain ⟨k, hlok, honk, habk⟩ := lt_top_diff h
        rcases lt_trichotomy k (mylog2 (lo &&& bits.zeros)) with hkm | hkm | hkm
        · have := habk _ hkm
          rw [hlom, hom] at this
          exact Bool.noConfusion this
        · rw [← hkm, hlok] at hlom
          exact Bool.noConfusion hlom
        · have := hcleanO k hkm honk
          rw [hlok] at this
          exact Bool.noConfusion this
    · intro v hvW hlov hsat
      rcases Nat.eq_or_lt_of_le hlov with hveq | hvlt
      · have := (hsat _).1 hzm
        rw [← hveq, hlom] at this
        exact Bool.noConfusion this
      · obtain ⟨k, hlok, hvk, habk⟩ := lt_top_diff hvlt
        have hkW : k < W := width_of_testBit hvW hvk
        rcases lt_trichotomy k (mylog2 (lo &&& bits.zeros)) with hkm | hkm | hkm
        · have hvm := (habk _ hkm).symm
          have := (hsat _).1 hzm
          rw [hvm, hlom] at this
          exact Bool.noConfusion this
        · rw [← hkm, hlok] at hlom
          exact Bool.noConfusion hlom
        · have hzk : bits.zeros.testBit k = false := by
            cases hzc : bits.zeros.testBit k with
            | false => rfl
            | true => rw [(hsat k).1 hzc] at hvk; exact Bool.noConfusion hvk
          have htk := (htmpbit k).2 ⟨hkm, hkW, hlok, hzk⟩
          rw [htmp, Nat.zero_testBit] at htk
          exact Bool.noConfusion htk
  · obtain ⟨i, hali, hibit, himin⟩ :=
      land_neg_eq_pow _ W htmp (land_lt_left (compl_lt heitherW) _)
    obtain ⟨him, hiW, hloi, hzi⟩ := (htmpbit i).1 hibit
    left
    have heq : adjust_lo W lo bits = (lo &&& (2 ^ W - 2 ^ i)) ||| 2 ^ i ||| bits.ones := by
      simp only [adjust_lo]
      rw [if_neg (by omega : ¬(lo &&& bits.zeros = compl W lo &&& bits.ones)),
        if_neg (by omega : ¬(lo &&& bits.zeros < compl W lo &&& bits.ones)), hfv, hali,
        adjust_expr_eq hlo hiW hloi]
    refine branch_aux hlo ho hdisj hiW hloi hzi ?_ ?_ ⟨_, Or.inl ⟨hzm, hlom⟩⟩ ?_ heq
    · intro q hq
      exact hcleanZ q (by omega)
    · intro q hq
      exact hcleanO q (by omega)
    · intro k hk hlk hzk
      rcases lt_trichotomy k (mylog2 (lo &&& bits.zeros)) with hkm | hkm | hkm
      · exact ⟨_, hkm, Or.inl ⟨hzm, hlom⟩⟩
      · rw [← hkm, hlk] at hlom
        exact Bool.noConfusion hlom
      · exfalso
        have htk := (htmpbit k).2 ⟨hkm, by omega, hlk, hzk⟩
        have h2 := himin k hk
        rw [htk] at h2
        exact Bool.noConfusion h2

theorem adjust_lo_correct {W lo : Nat} {bits : KnownBits}
    (hlo : lo < 2 ^ W) (hz : bits.zeros < 2 ^ W) (ho : bits.ones < 2 ^ W)
    (hdisj : bits.zeros &&& bits.ones = 0) :
    ((∃ v, v < 2 ^ W ∧ lo ≤ v ∧ bits.is_satisfied_by W v) →
      (adjust_lo W lo bits < 2 ^ W ∧ lo ≤ adjust_lo W lo bits ∧
        bits.is_satisfied_by W (adjust_lo W lo bits) ∧
        ∀ v, v < 2 ^ W → lo ≤ v → bits.is_satisfied_by W v → adjust_lo W lo bits ≤ v)) ∧
    ((¬∃ v, v < 2 ^ W ∧ lo ≤ v ∧ bits.is_satisfied_by W v) → adjust_lo W lo bits < lo) := by
  rcases lt_trichotomy (lo &&& bits.zeros) (compl W lo &&& bits.ones) with hB | hA | hC
  · obtain ⟨h1, h2, h3, h4⟩ := adjust_lo_lt_case hlo ho hdisj hB
    have hsat : bits.is_satisfied_by W (adjust_lo W lo bits) :=
      (is_satisfied_by_iff h2 ho).2 h3
    constructor
    · intro _
      exact ⟨h2, le_of_lt h1, hsat, fun v hvW hlov hsatv =>
        h4 v hlov ((is_satisfied_by_iff hvW ho).1 hsatv)⟩
    · intro hcon
      exact absurd ⟨_, h2, le_of_lt h1, hsat⟩ hcon
  · obtain ⟨h1, h2, h3⟩ := adjust_lo_eq_case hlo hA
    constructor
    · intro _
      rw [h3]
      exact ⟨hlo, le_rfl, ⟨h1, h2⟩, fun v _ hlov _ => hlov⟩
    · intro hcon
      exact absurd ⟨lo, hlo, le_rfl, h1, h2⟩ hcon
  · rcases adjust_lo_gt_case hlo hz ho hdisj hC with ⟨h1, h2, h3, h4⟩ | ⟨h1, h2, h3⟩
    · have hsat : bits.is_satisfied_by W (adjust_lo W lo bits) :=
        (is_satisfied_by_iff h2 ho).2 h3
      constructor
      · intro _
        exact ⟨h2, le_of_lt h1, hsat, fun v hvW hlov hsatv =>
          h4 v hlov ((is_satisfied_by_iff hvW ho).1 hsatv)⟩
      · intro hcon
        exact absurd ⟨_, h2, le_of_lt h1, hsat⟩ hcon
    · constructor
      · intro ⟨v, hvW, hlov, hsatv⟩
        exact absurd ((is_satisfied_by_iff hvW ho).1 hsatv) (h3 v hvW hlov)
      · intro _
        exact h2

/-! ### Claim theorems about `adjust_lo` -/

/-- C1: for every `W`-bit value `lo` and every consistent `KnownBits`,
`adjust_lo lo bits` returns the smallest `W`-bit value `v ≥ lo`
satisfying the bits whenever one exists, and when none exists the
returned value is numerically less than `lo`; this wraparound is the
sole infeasibility signal (the result is below `lo` exactly when no
feasible value exists). -/
theorem claim_C1 (W lo : Nat) (bits : KnownBits)
    (hlo : lo < 2 ^ W) (hz : bits.zeros < 2 ^ W) (ho : bits.ones < 2 ^ W)
    (hdisj : bits.zeros &&& bits.ones = 0) :
    ((∃ v, v < 2 ^ W ∧ lo ≤ v ∧ bits.is_satisfied_by W v) →
      (lo ≤ adjust_lo W lo bits ∧ adjust_lo W lo bits < 2 ^ W ∧
        bits.is_satisfied_by W (adjust_lo W lo bits) ∧
        ∀ v, v < 2 ^ W → lo ≤ v → bits.is_satisfied_by W v → adjust_lo W lo bits ≤ v)) ∧
    ((¬∃ v, v < 2 ^ W ∧ lo ≤ v ∧ bits.is_satisfied_by W v) ↔ adjust_lo W lo bits < lo) := by
  obtain ⟨hfeas, hinf⟩ := adjust_lo_correct hlo hz ho hdisj
  constructor
  · intro h
    obtain ⟨a, b, c, d⟩ := hfeas h
    exact ⟨b, a, c, d⟩
  · constructor
    · exact hinf
    · intro hlt hex
      obtain ⟨a, b, c, d⟩ := hfeas hex
      omega

/-- Witness for C1 at `W = 4`, `lo = 2`, `zeros = 0b0011`, `ones = 0`:
the hypotheses hold and the instantiated conclusion follows. -/
theorem claim_C1_witness :
    ((2 : Nat) < 2 ^ 4 ∧ (3 : Nat) < 2 ^ 4 ∧ (0 : Nat) < 2 ^ 4 ∧ (3 : Nat) &&& 0 = 0) ∧
    (((∃ v, v < 2 ^ 4 ∧ 2 ≤ v ∧ KnownBits.is_satisfied_by 4 ⟨3, 0⟩ v) →
      (2 ≤ adjust_lo 4 2 ⟨3, 0⟩ ∧ adjust_lo 4 2 ⟨3, 0⟩ < 2 ^ 4 ∧
        KnownBits.is_satisfied_by 4 ⟨3, 0⟩ (adjust_lo 4 2 ⟨3, 0⟩) ∧
        ∀ v, v < 2 ^ 4 → 2 ≤ v → KnownBits.is_satisfied_by 4 ⟨3, 0⟩ v →
          adjust_lo 4 2 ⟨3, 0⟩ ≤ v)) ∧
    ((¬∃ v, v < 2 ^ 4 ∧ 2 ≤ v ∧ KnownBits.is_satisfied_by 4 ⟨3, 0⟩ v) ↔
      adjust_lo 4 2 ⟨3, 0⟩ < 2)) :=
  ⟨⟨by decide, by decide, by decide, by decide⟩,
    claim_C1 4 2 ⟨3, 0⟩ (by decide) (by decide) (by decide) (by decide)⟩

/-- C10: validity of the assertions inside `adjust_lo`: (a) if
`zero_violation = one_violation` then both are zero (so `lo` itself
satisfies the bits and is returned); (b) in the
`zero_violation < one_violation` branch the result strictly exceeds
`lo`; (c) in the other branch the result strictly exceeds `lo` or
equals exactly `bits.ones`, the only value produced on overflow. -/
theorem claim_C10 (W lo : Nat) (bits : KnownBits)
    (hlo : lo < 2 ^ W) (hz : bits.zeros < 2 ^ W) (ho : bits.ones < 2 ^ W)
    (hdisj : bits.zeros &&& bits.ones = 0) :
    (lo &&& bits.zeros = compl W lo &&& bits.ones →
      lo &&& bits.zeros = 0 ∧ compl W lo &&& bits.ones = 0 ∧ adjust_lo W lo bits = lo) ∧
    (lo &&& bits.zeros < compl W lo &&& bits.ones → lo < adjust_lo W lo bits) ∧
    (compl W lo &&& bits.ones < lo &&& bits.zeros →
      lo < adjust_lo W lo bits ∨ adjust_lo W lo bits = bits.ones) :=
  ⟨fun h => adjust_lo_eq_case hlo h,
   fun h => (adjust_lo_lt_case hlo ho hdisj h).1,
   fun h => (adjust_lo_gt_case hlo hz ho hdisj h).elim
     (fun h2 => Or.inl h2.1) (fun h2 => Or.inr h2.1)⟩

/-- Witness for C10 at `W = 4`, `lo = 0b1100`, `zeros = 0b0100`,
`ones = 0b1001` (the overflow case of branch (c)). -/
theorem claim_C10_witness :
    ((12 : Nat) < 2 ^ 4 ∧ (4 : Nat) < 2 ^ 4 ∧ (9 : Nat) < 2 ^ 4 ∧ (4 : Nat) &&& 9 = 0) ∧
    ((12 &&& (⟨4, 9⟩ : KnownBits).zeros = compl 4 12 &&& (⟨4, 9⟩ : KnownBits).ones →
      12 &&& (⟨4, 9⟩ : KnownBits).zeros = 0 ∧
        compl 4 12 &&& (⟨4, 9⟩ : KnownBits).ones = 0 ∧ adjust_lo 4 12 ⟨4, 9⟩ = 12) ∧
    (12 &&& (⟨4, 9⟩ : KnownBits).zeros < compl 4 12 &&& (⟨4, 9⟩ : KnownBits).ones →
      12 < adjust_lo 4 12 ⟨4, 9⟩) ∧
    (compl 4 12 &&& (⟨4, 9⟩ : KnownBits).ones < 12 &&& (⟨4, 9⟩ : KnownBits).zeros →
      12 < adjust_lo 4 12 ⟨4, 9⟩ ∨ adjust_lo 4 12 ⟨4, 9⟩ = (⟨4, 9⟩ : KnownBits).ones)) :=
  ⟨⟨by decide, by decide, by decide, by decide⟩,
    claim_C10 4 12 ⟨4, 9⟩ (by decide) (by decide) (by decide) (by decide)⟩

/-- C9 counterexample: at width 4 with `lo = 0b1100`, `zeros = 0b0100`,
`ones = 0b1001`, `adjust_lo` does not return `0b0001 (1)` as the claim
states. -/
theorem claim_C9_counterexample : adjust_lo 4 12 ⟨4, 9⟩ ≠ 1 := by decide

/-- C9 (amended): at width 4 with `lo = 0b1100 (12)`, `zeros = 0b0100`,
`ones = 0b1001`, `adjust_lo` returns `0b1001 (9)` — exactly
`bits.ones` — which is less than 12, signaling via wraparound that no
4-bit value `≥ 12` satisfies the bits. -/
theorem claim_C9 :
    adjust_lo 4 12 ⟨4, 9⟩ = 9 ∧ (⟨4, 9⟩ : KnownBits).ones = 9 ∧
      adjust_lo 4 12 ⟨4, 9⟩ < 12 ∧
      ∀ v, v < 2 ^ 4 → 12 ≤ v → ¬(⟨4, 9⟩ : KnownBits).is_satisfied_by 4 v := by
  decide

/-- C8: bound tightening at width 4 with `lo = 0b0010 (2)`,
`hi = 0b1001 (9)`, `zeros = 0b0011`, `ones = 0`: canonicalization is
feasible and the canonical bounds are `[4, 8]`. -/
theorem claim_C8 :
    (canonicalize_constraints_simple 4 ⟨2, 9⟩ ⟨3, 0⟩).present = true ∧
      (canonicalize_constraints_simple 4 ⟨2, 9⟩ ⟨3, 0⟩).bounds = ⟨4, 8⟩ ∧
      (adjust_bounds_from_bits 4 ⟨2, 9⟩ ⟨3, 0⟩).result = ⟨4, 8⟩ := by
  decide

/-- C6 counterexample: at width 4, bounds `[2, 7]` with `zeros = 0b0110`
(a valid pair, consistent mask), `adjust_bounds_from_bits` reports
infeasible although the new lower bound does not wrap below the old one
and the new upper bound does not exceed the old one — the two
conditions the claim states to be the exact characterization of
infeasibility. -/
theorem claim_C6_counterexample :
    (2 : Nat) ≤ 7 ∧ (6 : Nat) &&& 0 = 0 ∧
      (adjust_bounds_from_bits 4 ⟨2, 7⟩ ⟨6, 0⟩).is_result_consistent = false ∧
      ¬(adjust_lo 4 2 ⟨6, 0⟩ < 2) ∧
      ¬(7 < compl 4 (adjust_lo 4 (compl 4 7) ⟨0, 6⟩)) := by
  decide

/-- C6 (amended): `adjust_bounds_from_bits` reports infeasible iff the
new lower bound wraps below the old lower bound, or the new upper bound
exceeds the old upper bound, or the two tightened bounds cross (new
lower bound above new upper bound); in every other case it returns the
tightened pair, which lies inside the old pair, with a progress flag
that is true exactly when at least one bound changed. -/
theorem claim_C6 (W : Nat) (bounds : RangeInt) (bits : KnownBits)
    (hlohi : bounds.lo ≤ bounds.hi) (hdisj : bits.zeros &&& bits.ones = 0) :
    ((adjust_bounds_from_bits W bounds bits).is_result_consistent = false ↔
      (adjust_lo W bounds.lo bits < bounds.lo ∨
        bounds.hi < compl W (adjust_lo W (compl W bounds.hi) ⟨bits.ones, bits.zeros⟩) ∨
        compl W (adjust_lo W (compl W bounds.hi) ⟨bits.ones, bits.zeros⟩) <
          adjust_lo W bounds.lo bits)) ∧
    ((adjust_bounds_from_bits W bounds bits).is_result_consistent = true →
      (adjust_bounds_from_bits W bounds bits).result =
          ⟨adjust_lo W bounds.lo bits,
            compl W (adjust_lo W (compl W bounds.hi) ⟨bits.ones, bits.zeros⟩)⟩ ∧
        bounds.lo ≤ adjust_lo W bounds.lo bits ∧
        compl W (adjust_lo W (compl W bounds.hi) ⟨bits.ones, bits.zeros⟩) ≤ bounds.hi ∧
        adjust_lo W bounds.lo bits ≤
          compl W (adjust_lo W (compl W bounds.hi) ⟨bits.ones, bits.zeros⟩) ∧
        ((adjust_bounds_from_bits W bounds bits).progress = true ↔
          (adjust_lo W bounds.lo bits ≠ bounds.lo ∨
            compl W (adjust_lo W (compl W bounds.hi) ⟨bits.ones, bits.zeros⟩) ≠ bounds.hi))) := by
  by_cases h1 : adjust_lo W bounds.lo bits < bounds.lo
  · constructor
    · have e : (adjust_bounds_from_bits W bounds bits).is_result_consistent = false := by
        simp only [adjust_bounds_from_bits]
        rw [if_pos h1]
      rw [e]
      constructor
      · intro _; exact Or.inl h1
      · intro _; rfl
    · intro hcon
      have e : (adjust_bounds_from_bits W bounds bits).is_result_consistent = false := by
        simp only [adjust_bounds_from_bits]
        rw [if_pos h1]
      rw [e] at hcon
      exact Bool.noConfusion hcon
  · by_cases h2 : bounds.hi < compl W (adjust_lo W (compl W bounds.hi) ⟨bits.ones, bits.zeros⟩)
    · have e : (adjust_bounds_from_bits W bounds bits).is_result_consistent = false := by
        simp only [adjust_bounds_from_bits]
        rw [if_neg h1, if_pos h2]
      constructor
      · rw [e]
        constructor
        · intro _; exact Or.inr (Or.inl h2)
        · intro _; rfl
      · intro hcon
        rw [e] at hcon
        exact Bool.noConfusion hcon
    · have eres : adjust_bounds_from_bits W bounds bits =
          ⟨decide (adjust_lo W bounds.lo bits ≠ bounds.lo ∨
              compl W (adjust_lo W (compl W bounds.hi) ⟨bits.ones, bits.zeros⟩) ≠ bounds.hi),
            decide (adjust_lo W bounds.lo bits ≤
              compl W (adjust_lo W (compl W bounds.hi) ⟨bits.ones, bits.zeros⟩)),
            ⟨adjust_lo W bounds.lo bits,
              compl W (adjust_lo W (compl W bounds.hi) ⟨bits.ones, bits.zeros⟩)⟩⟩ := by
        simp only [adjust_bounds_from_bits]
        rw [if_neg h1, if_neg h2]
      rw [eres]
      constructor
      · simp only [decide_eq_false_iff_not, Nat.not_le]
        constructor
        · intro h; exact Or.inr (Or.inr h)
        · intro h
          rcases h with h | h | h
          · exact absurd h h1
          · exact absurd h h2
          · exact h
      · intro hcons
        refine ⟨rfl, by omega, by omega, of_decide_eq_true hcons, ?_⟩
        exact decide_eq_true_iff

/-- Witness for C6 (amended) at width 4, bounds `[2, 9]`,
`zeros = 0b0011`, `ones = 0`. -/
theorem claim_C6_witness :
    ((2 : Nat) ≤ 9 ∧ (3 : Nat) &&& 0 = 0) ∧
    (((adjust_bounds_from_bits 4 ⟨2, 9⟩ ⟨3, 0⟩).is_result_consistent = false ↔
      (adjust_lo 4 2 ⟨3, 0⟩ < 2 ∨
        9 < compl 4 (adjust_lo 4 (compl 4 9) ⟨0, 3⟩) ∨
        compl 4 (adjust_lo 4 (compl 4 9) ⟨0, 3⟩) < adjust_lo 4 2 ⟨3, 0⟩)) ∧
    ((adjust_bounds_from_bits 4 ⟨2, 9⟩ ⟨3, 0⟩).is_result_consistent = true →
      (adjust_bounds_from_bits 4 ⟨2, 9⟩ ⟨3, 0⟩).result =
          ⟨adjust_lo 4 2 ⟨3, 0⟩, compl 4 (adjust_lo 4 (compl 4 9) ⟨0, 3⟩)⟩ ∧
        2 ≤ adjust_lo 4 2 ⟨3, 0⟩ ∧
        compl 4 (adjust_lo 4 (compl 4 9) ⟨0, 3⟩) ≤ 9 ∧
        adjust_lo 4 2 ⟨3, 0⟩ ≤ compl 4 (adjust_lo 4 (compl 4 9) ⟨0, 3⟩) ∧
        ((adjust_bounds_from_bits 4 ⟨2, 9⟩ ⟨3, 0⟩).progress = true ↔
          (adjust_lo 4 2 ⟨3, 0⟩ ≠ 2 ∨
            compl 4 (adjust_lo 4 (compl 4 9) ⟨0, 3⟩) ≠ 9)))) :=
  ⟨⟨by decide, by decide⟩, claim_C6 4 ⟨2, 9⟩ ⟨3, 0⟩ (by decide) (by decide)⟩

/-! ### Termination of the canonicalization loop -/

theorem kbits_card_le (W : Nat) (bits : KnownBits) : (kbits W bits).card ≤ W := by
  calc (kbits W bits).card ≤ (Finset.range W).card := Finset.card_filter_le _ _
    _ = W := Finset.card_range W

theorem adjust_bits_superset (W : Nat) (bits : KnownBits) (bounds : RangeInt) :
    (∀ i, bits.zeros.testBit i = true →
      (adjust_bits_from_bounds W bits bounds).result.zeros.testBit i = true) ∧
    (∀ i, bits.ones.testBit i = true →
      (adjust_bits_from_bounds W bits bounds).result.ones.testBit i = true) := by
  simp only [adjust_bits_from_bounds]
  constructor <;> intro i h <;> rw [Nat.testBit_lor, h] <;> rfl

theorem adjust_bits_result_lt (W : Nat) (bits : KnownBits) (bounds : RangeInt)
    (hz : bits.zeros < 2 ^ W) (ho : bits.ones < 2 ^ W) :
    (adjust_bits_from_bounds W bits bounds).result.zeros < 2 ^ W ∧
    (adjust_bits_from_bounds W bits bounds).result.ones < 2 ^ W := by
  simp only [adjust_bits_from_bounds]
  have hM : (if bounds.lo ^^^ bounds.hi = 0 then 2 ^ W - 1
      else compl W ((2 ^ W - 1) >>> count_leading_zeros W (bounds.lo ^^^ bounds.hi)))
      < 2 ^ W := by
    split
    · have := Nat.two_pow_pos W; omega
    · refine compl_lt ?_
      calc (2 ^ W - 1) >>> count_leading_zeros W (bounds.lo ^^^ bounds.hi)
            ≤ 2 ^ W - 1 := by
            rw [Nat.shiftRight_eq_div_pow]; exact Nat.div_le_self _ _
        _ < 2 ^ W := by have := Nat.two_pow_pos W; omega
  exact ⟨lor_lt hz (land_lt_left hM _), lor_lt ho (land_lt_left hM _)⟩

theorem kbits_strict_growth (W : Nat) (bits : KnownBits) (bounds : RangeInt)
    (hz : bits.zeros < 2 ^ W) (ho : bits.ones < 2 ^ W)
    (hprog : (adjust_bits_from_bounds W bits bounds).progress = true)
    (hcons : (adjust_bits_from_bounds W bits bounds).is_result_consistent = true) :
    (kbits W bits).card < (kbits W (adjust_bits_from_bounds W bits bounds).result).card := by
  obtain ⟨hsupZ, hsupO⟩ := adjust_bits_superset W bits bounds
  obtain ⟨hltZ, hltO⟩ := adjust_bits_result_lt W bits bounds hz ho
  have hsub : kbits W bits ⊆ kbits W (adjust_bits_from_bounds W bits bounds).result := by
    intro i hi
    rw [kbits, Finset.mem_filter] at hi ⊢
    exact ⟨hi.1, hi.2.elim (fun h => Or.inl (hsupZ i h)) (fun h => Or.inr (hsupO i h))⟩
  have hc : (adjust_bits_from_bounds W bits bounds).result.zeros &&&
      (adjust_bits_from_bounds W bits bounds).result.ones = 0 := by
    simp only [adjust_bits_from_bounds] at hcons ⊢
    exact of_decide_eq_true hcons
  have hne : (adjust_bits_from_bounds W bits bounds).result.zeros ≠ bits.zeros ∨
      (adjust_bits_from_bounds W bits bounds).result.ones ≠ bits.ones := by
    simp only [adjust_bits_from_bounds] at hprog ⊢
    exact of_decide_eq_true hprog
  have hnew : ∃ i, i < W ∧
      i ∈ kbits W (adjust_bits_from_bounds W bits bounds).result ∧ i ∉ kbits W bits := by
    rcases hne with hne | hne
    · have hdiff : ∃ i, (adjust_bits_from_bounds W bits bounds).result.zeros.testBit i ≠
          bits.zeros.testBit i := by
        by_contra hcontra
        push_neg at hcontra
        exact hne (Nat.eq_of_testBit_eq hcontra)
      obtain ⟨i, hi⟩ := hdiff
      have hz_i : bits.zeros.testBit i = false := by
        cases h : bits.zeros.testBit i with
        | false => rfl
        | true => exact absurd (hsupZ i h) (h ▸ hi)
      have hnz_i : (adjust_bits_from_bounds W bits bounds).result.zeros.testBit i = true := by
        cases h : (adjust_bits_from_bounds W bits bounds).result.zeros.testBit i with
        | false => rw [h, hz_i] at hi; exact absurd rfl hi
        | true => rfl
      have hiW : i < W := width_of_testBit hltZ hnz_i
      have ho_i : bits.ones.testBit i = false := by
        cases h : bits.ones.testBit i with
        | false => rfl
        | true =>
          exact absurd ⟨hnz_i, hsupO i h⟩ (land_eq_zero_iff.1 hc i)
      refine ⟨i, hiW, ?_, ?_⟩
      · rw [kbits, Finset.mem_filter]
        exact ⟨Finset.mem_range.2 hiW, Or.inl hnz_i⟩
      · rw [kbits, Finset.mem_filter]
        rintro ⟨-, h | h⟩
        · rw [hz_i] at h; exact Bool.noConfusion h
        · rw [ho_i] at h; exact Bool.noConfusion h
    · have hdiff : ∃ i, (adjust_bits_from_bounds W bits bounds).result.ones.testBit i ≠
          bits.ones.testBit i := by
        by_contra hcontra
        push_neg at hcontra
        exact hne (Nat.eq_of_testBit_eq hcontra)
      obtain ⟨i, hi⟩ := hdiff
      have ho_i : bits.ones.testBit i = false := by
        cases h : bits.ones.testBit i with
        | false => rfl
        | true => exact absurd (hsupO i h) (h ▸ hi)
      have hno_i : (adjust_bits_from_bounds W bits bounds).result.ones.testBit i = true := by
        cases h : (adjust_bits_from_bounds W bits bounds).result.ones.testBit i with
        | false => rw [h, ho_i] at hi; exact absurd rfl hi
        | true => rfl
      have hiW : i < W := width_of_testBit hltO hno_i
      have hz_i : bits.zeros.testBit i = false := by
        cases h : bits.zeros.testBit i with
        | false => rfl
        | true =>
          exact absurd ⟨hsupZ i h, hno_i⟩ (land_eq_zero_iff.1 hc i)
      refine ⟨i, hiW, ?_, ?_⟩
      · rw [kbits, Finset.mem_filter]
        exact ⟨Finset.mem_range.2 hiW, Or.inr hno_i⟩
      · rw [kbits, Finset.mem_filter]
        rintro ⟨-, h | h⟩
        · rw [hz_i] at h; exact Bool.noConfusion h
        · rw [ho_i] at h; exact Bool.noConfusion h
  obtain ⟨i, -, hmem, hnmem⟩ := hnew
  exact Finset.card_lt_card ((Finset.ssubset_iff_of_subset hsub).2 ⟨i, hmem, hnmem⟩)

theorem canon_loop_isSome (W : Nat) : ∀ fuel (bounds : RangeInt) (bits : KnownBits),
    bits.zeros < 2 ^ W → bits.ones < 2 ^ W →
    W + 1 ≤ (kbits W bits).card + fuel →
    (canon_loop W fuel bounds bits).isSome = true := by
  intro fuel
  induction fuel with
  | zero =>
    intro bounds bits _ _ hcard
    have := kbits_card_le W bits
    omega
  | succ fuel ih =>
    intro bounds bits hz ho hcard
    simp only [canon_loop]
    by_cases h1 : (!(adjust_bounds_from_bits W bounds bits).progress ||
        !(adjust_bounds_from_bits W bounds bits).is_result_consistent) = true
    · rw [if_pos h1]; rfl
    · rw [if_neg h1]
      by_cases h2 : (!(adjust_bits_from_bounds W bits
            (adjust_bounds_from_bits W bounds bits).result).progress ||
          !(adjust_bits_from_bounds W bits
            (adjust_bounds_from_bits W bounds bits).result).is_result_consistent) = true
      · rw [if_pos h2]; rfl
      · rw [if_neg h2]
        have hprog : (adjust_bits_from_bounds W bits
            (adjust_bounds_from_bits W bounds bits).result).progress = true := by
          cases h : (adjust_bits_from_bounds W bits
              (adjust_bounds_from_bits W bounds bits).result).progress with
          | true => rfl
          | false => rw [h] at h2; simp at h2
        have hcons : (adjust_bits_from_bounds W bits
            (adjust_bounds_from_bits W bounds bits).result).is_result_consistent = true := by
          cases h : (adjust_bits_from_bounds W bits
              (adjust_bounds_from_bits W bounds bits).result).is_result_consistent with
          | true => rfl
          | false => rw [h] at h2; simp at h2
        obtain ⟨hz2, ho2⟩ := adjust_bits_result_lt W bits
          (adjust_bounds_from_bits W bounds bits).result hz ho
        have hgrow := kbits_strict_growth W bits
          (adjust_bounds_from_bits W bounds bits).result hz ho hprog hcons
        exact ih _ _ hz2 ho2 (by omega)

theorem adjust_lo_zero_bits (W lo : Nat) : adjust_lo W lo ⟨0, 0⟩ = lo := by
  simp only [adjust_lo]
  rw [if_pos (by rw [Nat.and_zero, Nat.and_zero])]

theorem adjust_bounds_zero_bits (W : Nat) (bounds : RangeInt) (hhi : bounds.hi < 2 ^ W) :
    adjust_bounds_from_bits W bounds ⟨0, 0⟩ =
      ⟨false, decide (bounds.lo ≤ bounds.hi), bounds⟩ := by
  simp only [adjust_bounds_from_bits, adjust_lo_zero_bits, compl_compl hhi]
  rw [if_neg (Nat.lt_irrefl _), if_neg (Nat.lt_irrefl _)]
  simp

theorem KnownBits.ext' {a b : KnownBits} (h1 : a.zeros = b.zeros)
    (h2 : a.ones = b.ones) : a = b := by
  cases a; cases b; simp_all

/-- C3: for every `W`-bit bound pair and mask pair (`W ≥ 1`, covering
the 32- and 64-bit instantiations), once the initial bits-from-bounds
step is consistent, the alternating tightening loop of
`canonicalize_constraints_simple` reaches a no-progress or
infeasibility exit within at most `W` loop iterations: running the loop
with fuel `W` (one unit per iteration) never exhausts the fuel, so the
function terminates. -/
theorem claim_C3 (W : Nat) (bounds : RangeInt) (bits : KnownBits)
    (hW : 0 < W) (hhi : bounds.hi < 2 ^ W)
    (hz : bits.zeros < 2 ^ W) (ho : bits.ones < 2 ^ W) :
    (canon_loop W W bounds (adjust_bits_from_bounds W bits bounds).result).isSome = true := by
  obtain ⟨hz2, ho2⟩ := adjust_bits_result_lt W bits bounds hz ho
  by_cases hcard : 1 ≤ (kbits W (adjust_bits_from_bounds W bits bounds).result).card
  · exact canon_loop_isSome W W bounds _ hz2 ho2 (by omega)
  · have hcard0 : (kbits W (adjust_bits_from_bounds W bits bounds).result).card = 0 := by
      omega
    have hzero : (adjust_bits_from_bounds W bits bounds).result = ⟨0, 0⟩ := by
      have hempty := Finset.card_eq_zero.1 hcard0
      have hallz : ∀ i, (adjust_bits_from_bounds W bits bounds).result.zeros.testBit i
          = false := by
        intro i
        by_cases hiW : i < W
        · cases h : (adjust_bits_from_bounds W bits bounds).result.zeros.testBit i with
          | false => rfl
          | true =>
            exfalso
            have : i ∈ kbits W (adjust_bits_from_bounds W bits bounds).result := by
              rw [kbits, Finset.mem_filter]
              exact ⟨Finset.mem_range.2 hiW, Or.inl h⟩
            rw [hempty] at this
            exact absurd this (Finset.not_mem_empty i)
        · exact testBit_ge_width hz2 (Nat.not_lt.1 hiW)
      have hallo : ∀ i, (adjust_bits_from_bounds W bits bounds).result.ones.testBit i
          = false := by
        intro i
        by_cases hiW : i < W
        · cases h : (adjust_bits_from_bounds W bits bounds).result.ones.testBit i with
          | false => rfl
          | true =>
            exfalso
            have : i ∈ kbits W (adjust_bits_from_bounds W bits bounds).result := by
              rw [kbits, Finset.mem_filter]
              exact ⟨Finset.mem_range.2 hiW, Or.inr h⟩
            rw [hempty] at this
            exact absurd this (Finset.not_mem_empty i)
        · exact testBit_ge_width ho2 (Nat.not_lt.1 hiW)
      exact KnownBits.ext' (eq_zero_of_all_testBit hallz) (eq_zero_of_all_testBit hallo)
    rw [hzero]
    obtain ⟨W2, rfl⟩ : ∃ W2, W = W2 + 1 := ⟨W - 1, by omega⟩
    simp only [canon_loop]
    rw [adjust_bounds_zero_bits _ _ hhi]
    rw [if_pos (by simp)]
    rfl

/-- Witness for C3 at `W = 4`, bounds `[2, 9]`, `zeros = 3`,
`ones = 0`. -/
theorem claim_C3_witness :
    ((0 : Nat) < 4 ∧ (9 : Nat) < 2 ^ 4 ∧ (3 : Nat) < 2 ^ 4 ∧ (0 : Nat) < 2 ^ 4) ∧
    (canon_loop 4 4 ⟨2, 9⟩ (adjust_bits_from_bounds 4 ⟨3, 0⟩ ⟨2, 9⟩).result).isSome = true :=
  ⟨⟨by decide, by decide, by decide, by decide⟩,
    claim_C3 4 ⟨2, 9⟩ ⟨3, 0⟩ (by decide) (by decide) (by decide) (by decide)⟩

/-! ### The mixed-sign intersection bug of `canonicalize_constraints` -/

/-- C2 failing input, width 4: the prototype with signed range
`[-5, -2]` (patterns `[11, 14]`), unsigned range `[1, 5]` and
`ones = 0b1000` represents the empty set (no value is in both ranges),
yet `canonicalize_constraints` — whose emptiness check after the signed
intersection `MAX2<S>`/`MIN2<S>` compares the two patterns as unsigned
(line 408) — returns `present = true` with a canonical triple that
contains the value 8.  This contradicts the function's own doc comment
("the result represents the same set as the input") and the
`contains`-based assertions of `verify_constraints`. -/
theorem claim_C2_bug :
    (∀ v, v < 2 ^ 4 → ¬(⟨⟨11, 14⟩, ⟨1, 5⟩, ⟨0, 8⟩⟩ : TypeIntPrototype).contains 4 v) ∧
    (TypeIntPrototype.canonicalize_constraints 4 ⟨⟨11, 14⟩, ⟨1, 5⟩, ⟨0, 8⟩⟩).present = true ∧
    (TypeIntPrototype.canonicalize_constraints 4 ⟨⟨11, 14⟩, ⟨1, 5⟩, ⟨0, 8⟩⟩).data.contains 4 8 := by
  decide

/-- C4 failing input, width 4: canonicalizing the prototype with signed
range `[-5, -2]` (patterns `[11, 14]`), unsigned range `[1, 5]` and no
known bits returns `present = true` with data whose signed range is the
pattern pair `(1, 14)` — an inverted signed interval `[1, -2]` — and
re-canonicalizing that data returns `present = false`, not the
identical triple the claim requires. -/
theorem claim_C4_bug :
    (TypeIntPrototype.canonicalize_constraints 4 ⟨⟨11, 14⟩, ⟨1, 5⟩, ⟨0, 0⟩⟩).present = true ∧
    (TypeIntPrototype.canonicalize_constraints 4 ⟨⟨11, 14⟩, ⟨1, 5⟩, ⟨0, 0⟩⟩).data.srange
      = ⟨1, 14⟩ ∧
    (TypeIntPrototype.canonicalize_constraints 4
      (TypeIntPrototype.canonicalize_constraints 4 ⟨⟨11, 14⟩, ⟨1, 5⟩, ⟨0, 0⟩⟩).data).present
      = false := by
  decide

/-! ### The sign-straddling combination (C5) -/

/-- C5: in the sign-straddling case of `canonicalize_constraints` (the
unsigned range reinterpreted as signed has `lo > hi`, no trivial
contradiction fires and neither pre-tightening applies), when both the
negative and the non-negative sub-range canonicalize as feasible, the
combined result has signed range from the negative sub-range's lower
bound to the non-negative sub-range's upper bound, unsigned range
`[non-negative.lo, negative.hi]`, zeros the bitwise AND of the two
sub-ranges' zeros, and ones the bitwise AND of the two sub-ranges'
ones. -/
theorem claim_C5 (W : Nat) (t : TypeIntPrototype)
    (h1 : ¬(sval W t.srange.hi < sval W t.srange.lo))
    (h2 : ¬(t.urange.hi < t.urange.lo))
    (h3 : t.bits.zeros &&& t.bits.ones = 0)
    (h4 : sval W t.urange.hi < sval W t.urange.lo)
    (h5 : ¬(sval W t.urange.hi < sval W t.srange.lo))
    (h6 : ¬(sval W t.srange.hi < sval W t.urange.lo))
    (hneg : (canonicalize_constraints_simple W ⟨t.srange.lo, t.urange.hi⟩ t.bits).present = true)
    (hpos : (canonicalize_constraints_simple W ⟨t.urange.lo, t.srange.hi⟩ t.bits).present = true) :
    t.canonicalize_constraints W =
      ⟨true,
        ⟨⟨(canonicalize_constraints_simple W ⟨t.srange.lo, t.urange.hi⟩ t.bits).bounds.lo,
          (canonicalize_constraints_simple W ⟨t.urange.lo, t.srange.hi⟩ t.bits).bounds.hi⟩,
         ⟨(canonicalize_constraints_simple W ⟨t.urange.lo, t.srange.hi⟩ t.bits).bounds.lo,
          (canonicalize_constraints_simple W ⟨t.srange.lo, t.urange.hi⟩ t.bits).bounds.hi⟩,
         ⟨(canonicalize_constraints_simple W ⟨t.srange.lo, t.urange.hi⟩ t.bits).bits.zeros &&&
            (canonicalize_constraints_simple W ⟨t.urange.lo, t.srange.hi⟩ t.bits).bits.zeros,
          (canonicalize_constraints_simple W ⟨t.srange.lo, t.urange.hi⟩ t.bits).bits.ones &&&
            (canonicalize_constraints_simple W ⟨t.urange.lo, t.srange.hi⟩ t.bits).bits.ones⟩⟩⟩ := by
  simp only [TypeIntPrototype.canonicalize_constraints]
  rw [if_neg (by push_neg; exact ⟨not_lt.1 h1, not_lt.1 h2, h3⟩)]
  rw [if_pos h4, if_neg h5, if_neg h6]
  rw [if_neg (not_le.2 h4)]
  rw [if_neg (by simp [hneg])]
  rw [if_neg (by simp [hneg])]
  rw [if_neg (by simp [hpos])]

/-- Witness for C5 at width 4: signed range `[-2, 2]` (patterns
`[14, 2]`), unsigned range `[0, 15]`, no known bits. -/
theorem claim_C5_witness :
    (¬(sval 4 2 < sval 4 14) ∧ ¬((15 : Nat) < 0) ∧ (0 : Nat) &&& 0 = 0 ∧
      sval 4 15 < sval 4 0 ∧ ¬(sval 4 15 < sval 4 14) ∧ ¬(sval 4 2 < sval 4 0) ∧
      (canonicalize_constraints_simple 4 ⟨14, 15⟩ ⟨0, 0⟩).present = true ∧
      (canonicalize_constraints_simple 4 ⟨0, 2⟩ ⟨0, 0⟩).present = true) ∧
    (⟨⟨14, 2⟩, ⟨0, 15⟩, ⟨0, 0⟩⟩ : TypeIntPrototype).canonicalize_constraints 4 =
      ⟨true,
        ⟨⟨(canonicalize_constraints_simple 4 ⟨14, 15⟩ ⟨0, 0⟩).bounds.lo,
          (canonicalize_constraints_simple 4 ⟨0, 2⟩ ⟨0, 0⟩).bounds.hi⟩,
         ⟨(canonicalize_constraints_simple 4 ⟨0, 2⟩ ⟨0, 0⟩).bounds.lo,
          (canonicalize_constraints_simple 4 ⟨14, 15⟩ ⟨0, 0⟩).bounds.hi⟩,
         ⟨(canonicalize_constraints_simple 4 ⟨14, 15⟩ ⟨0, 0⟩).bits.zeros &&&
            (canonicalize_constraints_simple 4 ⟨0, 2⟩ ⟨0, 0⟩).bits.zeros,
          (canonicalize_constraints_simple 4 ⟨14, 15⟩ ⟨0, 0⟩).bits.ones &&&
            (canonicalize_constraints_simple 4 ⟨0, 2⟩ ⟨0, 0⟩).bits.ones⟩⟩⟩ :=
  ⟨⟨by decide, by decide, by decide, by decide, by decide, by decide, by decide, by decide⟩,
    claim_C5 4 ⟨⟨14, 2⟩, ⟨0, 15⟩, ⟨0, 0⟩⟩ (by decide) (by decide) (by decide) (by decide)
      (by decide) (by decide) (by decide) (by decide)⟩

/-! ### Stabilization of the widening operator (C7) -/

theorem TYPE_DOMAIN_contains {W v : Nat} (hW : 0 < W) (hv : v < 2 ^ W) :
    (TYPE_DOMAIN W).proto.contains W v := by
  have h1 : (2 : Nat) ^ (W - 1) ≤ 2 ^ W := Nat.pow_le_pow_right (by omega) (by omega)
  have h2 : (1 : Nat) ≤ 2 ^ (W - 1) := Nat.one_le_two_pow
  have hc1 : ((2 ^ W : Nat) : Int) = (2 : Int) ^ W := by push_cast; ring
  have hc2 : ((2 ^ (W - 1) : Nat) : Int) = (2 : Int) ^ (W - 1) := by push_cast; ring
  refine ⟨?_, ?_, Nat.zero_le v, ?_, Nat.and_zero v, Nat.and_zero _⟩
  · show sval W (2 ^ (W - 1)) ≤ sval W v
    unfold sval
    rw [if_neg (Nat.lt_irrefl (2 ^ (W - 1)))]
    split <;> omega
  · show sval W v ≤ sval W (2 ^ (W - 1) - 1)
    unfold sval
    rw [if_pos (show 2 ^ (W - 1) - 1 < 2 ^ (W - 1) by omega)]
    split <;> omega
  · show v ≤ 2 ^ W - 1
    omega

theorem int_type_is_subset_TYPE_DOMAIN {W : Nat} (hW : 0 < W) (t : IntType) :
    int_type_is_subset W (TYPE_DOMAIN W) t :=
  fun _ hv _ => TYPE_DOMAIN_contains hW hv

theorem widen_new_fix (W : Nat) (new_type : IntType) (limit : Option IntType) :
    int_type_widen W new_type (some new_type) limit = some new_type := by
  simp only [int_type_widen]
  rw [if_pos (show int_type_is_equal new_type new_type from rfl)]

theorem widen_TD_fix (W : Nat) (hW : 0 < W) (new_type : IntType) (limit : Option IntType) :
    int_type_widen W new_type (some (TYPE_DOMAIN W)) limit = some (TYPE_DOMAIN W) := by
  simp only [int_type_widen]
  by_cases heq : int_type_is_equal new_type (TYPE_DOMAIN W)
  · rw [if_pos heq]
  · rw [if_neg heq, if_pos (int_type_is_subset_TYPE_DOMAIN hW new_type)]

theorem widen_proto_fix (W : Nat) (new_type t : IntType) (limit : Option IntType)
    (h : t.proto = new_type.proto) :
    int_type_widen W new_type (some t) limit = some t := by
  simp only [int_type_widen]
  rw [if_pos (show int_type_is_equal new_type t from h.symm)]

theorem try_make_of_canonical {W : Nat} {new_type : IntType} (w : Nat)
    (hcanon : new_type.proto.canonicalize_constraints W = ⟨true, new_type.proto⟩) :
    try_make W new_type.proto w =
      some ⟨new_type.proto, new_type.proto.normalize_widen W w⟩ := by
  simp only [try_make]
  rw [hcanon]
  rfl

theorem widen_stabilizes (W : Nat) (hW : 0 < W) (new_type : IntType) (limit : Option IntType)
    (hcanon : new_type.proto.canonicalize_constraints W = ⟨true, new_type.proto⟩)
    (o : Option IntType) :
    int_type_widen W new_type (int_type_widen W new_type
        (int_type_widen W new_type o limit) limit) limit =
      int_type_widen W new_type (int_type_widen W new_type o limit) limit := by
  match o with
  | none =>
    have e0 : int_type_widen W new_type none limit = some new_type := rfl
    have h2 : int_type_widen W new_type (int_type_widen W new_type none limit) limit
        = some new_type := by
      rw [e0]
      exact widen_new_fix W new_type limit
    rw [h2]
    exact widen_new_fix W new_type limit
  | some old =>
    by_cases c1 : int_type_is_equal new_type old
    · have e1 : int_type_widen W new_type (some old) limit = some old := by
        simp only [int_type_widen]
        rw [if_pos c1]
      have h2 : int_type_widen W new_type (int_type_widen W new_type (some old) limit) limit
          = some old := by
        rw [e1]
        exact e1
      rw [h2]
      exact e1
    · by_cases c2 : int_type_is_subset W old new_type
      · have e1 : int_type_widen W new_type (some old) limit = some old := by
          simp only [int_type_widen]
          rw [if_neg c1, if_pos c2]
        have h2 : int_type_widen W new_type (int_type_widen W new_type (some old) limit) limit
            = some old := by
          rw [e1]
          exact e1
        rw [h2]
        exact e1
      · by_cases c3 : int_type_is_subset W new_type old
        · by_cases c4 : old.singleton
          · have e1 : int_type_widen W new_type (some old) limit = some new_type := by
              simp only [int_type_widen]
              rw [if_neg c1, if_neg c2, if_neg (not_not_intro c3), if_pos c4]
            have h2 : int_type_widen W new_type
                (int_type_widen W new_type (some old) limit) limit = some new_type := by
              rw [e1]
              exact widen_new_fix W new_type limit
            rw [h2]
            exact widen_new_fix W new_type limit
          · by_cases c5 : old.widen < new_type.widen
            · have e1 : int_type_widen W new_type (some old) limit = some new_type := by
                simp only [int_type_widen]
                rw [if_neg c1, if_neg c2, if_neg (not_not_intro c3), if_neg c4, if_pos c5]
              have h2 : int_type_widen W new_type
                  (int_type_widen W new_type (some old) limit) limit = some new_type := by
                rw [e1]
                exact widen_new_fix W new_type limit
              rw [h2]
              exact widen_new_fix W new_type limit
            · by_cases c6 : new_type.widen < WidenMax
              · have e1 : int_type_widen W new_type (some old) limit =
                    some ⟨new_type.proto,
                      new_type.proto.normalize_widen W (new_type.widen + 1)⟩ := by
                  simp only [int_type_widen]
                  rw [if_neg c1, if_neg c2, if_neg (not_not_intro c3), if_neg c4, if_neg c5,
                    if_pos c6, try_make_of_canonical _ hcanon]
                have efix := widen_proto_fix W new_type
                  ⟨new_type.proto, new_type.proto.normalize_widen W (new_type.widen + 1)⟩
                  limit rfl
                have h2 : int_type_widen W new_type
                    (int_type_widen W new_type (some old) limit) limit
                    = some ⟨new_type.proto,
                        new_type.proto.normalize_widen W (new_type.widen + 1)⟩ := by
                  rw [e1]
                  exact efix
                rw [h2]
                exact efix
              · have e1 : int_type_widen W new_type (some old) limit =
                    try_make W (widen_fallback_proto W new_type limit) WidenMax := by
                  simp only [int_type_widen]
                  rw [if_neg c1, if_neg c2, if_neg (not_not_intro c3), if_neg c4, if_neg c5,
                    if_neg c6]
                cases h8 : try_make W (widen_fallback_proto W new_type limit) WidenMax with
                | none =>
                  have e1n : int_type_widen W new_type (some old) limit = none := e1.trans h8
                  have h2 : int_type_widen W new_type
                      (int_type_widen W new_type (some old) limit) limit
                      = some new_type := by
                    rw [e1n]
                    rfl
                  rw [h2]
                  exact widen_new_fix W new_type limit
                | some t8 =>
                  have e1s : int_type_widen W new_type (some old) limit = some t8 :=
                    e1.trans h8
                  by_cases d1 : int_type_is_equal new_type t8
                  · have e : int_type_widen W new_type (some t8) limit = some t8 := by
                      simp only [int_type_widen]
                      rw [if_pos d1]
                    have h2 : int_type_widen W new_type
                        (int_type_widen W new_type (some old) limit) limit = some t8 := by
                      rw [e1s]
                      exact e
                    rw [h2]
                    exact e
                  · by_cases d2 : int_type_is_subset W t8 new_type
                    · have e : int_type_widen W new_type (some t8) limit = some t8 := by
                        simp only [int_type_widen]
                        rw [if_neg d1, if_pos d2]
                      have h2 : int_type_widen W new_type
                          (int_type_widen W new_type (some old) limit) limit = some t8 := by
                        rw [e1s]
                        exact e
                      rw [h2]
                      exact e
                    · by_cases d3 : int_type_is_subset W new_type t8
                      · by_cases d4 : t8.singleton
                        · have e : int_type_widen W new_type (some t8) limit
                              = some new_type := by
                            simp only [int_type_widen]
                            rw [if_neg d1, if_neg d2, if_neg (not_not_intro d3), if_pos d4]
                          have h2 : int_type_widen W new_type
                              (int_type_widen W new_type (some old) limit) limit
                              = some new_type := by
                            rw [e1s]
                            exact e
                          rw [h2]
                          exact widen_new_fix W new_type limit
                        · by_cases d5 : t8.widen < new_type.widen
                          · have e : int_type_widen W new_type (some t8) limit
                                = some new_type := by
                              simp only [int_type_widen]
                              rw [if_neg d1, if_neg d2, if_neg (not_not_intro d3), if_neg d4,
                                if_pos d5]
                            have h2 : int_type_widen W new_type
                                (int_type_widen W new_type (some old) limit) limit
                                = some new_type := by
                              rw [e1s]
                              exact e
                            rw [h2]
                            exact widen_new_fix W new_type limit
                          · have e : int_type_widen W new_type (some t8) limit = some t8 := by
                              simp only [int_type_widen]
                              rw [if_neg d1, if_neg d2, if_neg (not_not_intro d3), if_neg d4,
                                if_neg d5, if_neg c6]
                              exact h8
                            have h2 : int_type_widen W new_type
                                (int_type_widen W new_type (some old) limit) limit
                                = some t8 := by
                              rw [e1s]
                              exact e
                            rw [h2]
                            exact e
                      · have e : int_type_widen W new_type (some t8) limit
                            = some (TYPE_DOMAIN W) := by
                          simp only [int_type_widen]
                          rw [if_neg d1, if_neg d2, if_pos d3]
                        have h2 : int_type_widen W new_type
                            (int_type_widen W new_type (some old) limit) limit
                            = some (TYPE_DOMAIN W) := by
                          rw [e1s]
                          exact e
                        rw [h2]
                        exact widen_TD_fix W hW new_type limit
        · have e1 : int_type_widen W new_type (some old) limit = some (TYPE_DOMAIN W) := by
            simp only [int_type_widen]
            rw [if_neg c1, if_neg c2, if_pos c3]
          have h2 : int_type_widen W new_type
              (int_type_widen W new_type (some old) limit) limit
              = some (TYPE_DOMAIN W) := by
            rw [e1]
            exact widen_TD_fix W hW new_type limit
          rw [h2]
          exact widen_TD_fix W hW new_type limit

theorem iterate_widen_succ (W : Nat) (new_type : IntType) (limit : Option IntType) :
    ∀ k o, iterate_widen W new_type limit (k + 1) o =
      int_type_widen W new_type (iterate_widen W new_type limit k o) limit := by
  intro k
  induction k with
  | zero => intro o; rfl
  | succ k ih =>
    intro o
    show iterate_widen W new_type limit (k + 1) (int_type_widen W new_type o limit) =
      int_type_widen W new_type (iterate_widen W new_type limit (k + 1) o) limit
    rw [ih]
    rfl

/-- C7 counterexample (with `WidenMax = 3`, the claim's bound is
`3 + 2 = 5` calls): starting from the feasible constant type `{0}` at
width 4 and widening against the strictly growing candidate sequence
`{0,1}, {0,1,2}, …, {0..6}` (all with widen hint 0), the result still
changes at the sixth call, so the type does not stop changing within
`WidenMax + 2` calls. -/
theorem claim_C7_counterexample :
    (let t0 : IntType := ⟨⟨⟨0, 0⟩, ⟨0, 0⟩, ⟨15, 0⟩⟩, 0⟩
     let step := fun (o : Option IntType) (n : IntType) => int_type_widen 4 n o none
     let r5 := step (step (step (step (step (some t0) ⟨⟨⟨0, 1⟩, ⟨0, 1⟩, ⟨14, 0⟩⟩, 0⟩)
       ⟨⟨⟨0, 2⟩, ⟨0, 2⟩, ⟨12, 0⟩⟩, 0⟩) ⟨⟨⟨0, 3⟩, ⟨0, 3⟩, ⟨12, 0⟩⟩, 0⟩)
       ⟨⟨⟨0, 4⟩, ⟨0, 4⟩, ⟨8, 0⟩⟩, 0⟩) ⟨⟨⟨0, 5⟩, ⟨0, 5⟩, ⟨8, 0⟩⟩, 0⟩
     (⟨⟨⟨0, 0⟩, ⟨0, 0⟩, ⟨15, 0⟩⟩, 0⟩ : IntType).proto.canonicalize_constraints 4 =
        ⟨true, ⟨⟨0, 0⟩, ⟨0, 0⟩, ⟨15, 0⟩⟩⟩ ∧
      step r5 ⟨⟨⟨0, 6⟩, ⟨0, 6⟩, ⟨8, 0⟩⟩, 0⟩ ≠ r5) := by
  decide

/-- C7 (amended): when the new candidate type and the limit type are
held constant across calls (as in the claim's "fixed sequence"
degenerated to a constant one), iterated widening stabilizes within at
most `WidenMax + 2` calls: from that call index on, the iterates no
longer change. -/
theorem claim_C7 (W : Nat) (new_type : IntType) (limit : Option IntType)
    (old : Option IntType) (hW : 0 < W)
    (hcanon : new_type.proto.canonicalize_constraints W = ⟨true, new_type.proto⟩) :
    ∀ k, WidenMax + 2 ≤ k →
      iterate_widen W new_type limit k old = iterate_widen W new_type limit (WidenMax + 2) old := by
  have hstab : ∀ k, 2 ≤ k →
      iterate_widen W new_type limit k old = iterate_widen W new_type limit 2 old := by
    intro k
    induction k with
    | zero => omega
    | succ k ih =>
      intro hk
      rcases Nat.lt_or_ge k 2 with h2 | h2
      · have : k = 1 := by omega
        subst this
        rfl
      · rw [iterate_widen_succ, ih h2]
        have e2 : iterate_widen W new_type limit 2 old =
            int_type_widen W new_type (int_type_widen W new_type old limit) limit := rfl
        rw [e2]
        exact widen_stabilizes W hW new_type limit hcanon old
  intro k hk
  rw [hstab k (by omega), hstab (WidenMax + 2) (by decide)]

/-- Witness for C7 (amended) at width 4 with the canonical candidate
`{0..3}` and old type `{0}`, instantiated at `k = 6`. -/
theorem claim_C7_witness :
    ((0 : Nat) < 4 ∧
      (⟨⟨⟨0, 3⟩, ⟨0, 3⟩, ⟨12, 0⟩⟩, 0⟩ : IntType).proto.canonicalize_constraints 4 =
        ⟨true, ⟨⟨0, 3⟩, ⟨0, 3⟩, ⟨12, 0⟩⟩⟩ ∧ WidenMax + 2 ≤ 6) ∧
    iterate_widen 4 ⟨⟨⟨0, 3⟩, ⟨0, 3⟩, ⟨12, 0⟩⟩, 0⟩ none 6
        (some ⟨⟨⟨0, 0⟩, ⟨0, 0⟩, ⟨15, 0⟩⟩, 0⟩) =
      iterate_widen 4 ⟨⟨⟨0, 3⟩, ⟨0, 3⟩, ⟨12, 0⟩⟩, 0⟩ none (WidenMax + 2)
        (some ⟨⟨⟨0, 0⟩, ⟨0, 0⟩, ⟨15, 0⟩⟩, 0⟩) :=
  ⟨⟨by decide, by decide, by decide⟩,
    claim_C7 4 ⟨⟨⟨0, 3⟩, ⟨0, 3⟩, ⟨12, 0⟩⟩, 0⟩ none (some ⟨⟨⟨0, 0⟩, ⟨0, 0⟩, ⟨15, 0⟩⟩, 0⟩)
      (by decide) (by decide) 6 (by decide)⟩

end RangeInf
